import Mathlib

/-!
Verification of the rossa combination-generation core
(`src/rossa/parameters.py`) against its specification.

The Python module is shallowly embedded: Python dictionaries become
association lists (`Dict`), Python values become the inductive `Val`,
exceptions become an explicit `Err` type in `Except`, and the module's
in-place mutation of its input mapping is made explicit by threading the
root mapping through the functions that mutate it.  Recursive walks over
the nested mapping use an explicit fuel parameter (structurally recursive
in the fuel) so that every definition evaluates by kernel reduction; fuel
exhaustion is a dedicated error `Err.fuelOut` that is proved unreachable
where a theorem needs it.
-/

set_option maxHeartbeats 1600000
set_option maxRecDepth 4096

namespace Rossa

/-- Python values as they occur in a rossa parameter specification:
integers, strings, `None`, lists and (string-keyed, insertion-ordered)
dictionaries. -/
inductive Val where
  | int : Int → Val
  | str : String → Val
  | vnone : Val
  | list : List Val → Val
  | dict : List (String × Val) → Val
deriving Repr

/-- A Python dictionary: insertion-ordered association list with string keys. -/
abbrev Dict := List (String × Val)

mutual

/-- Boolean structural equality of values (the `DecidableEq` deriving
handler does not support this nested inductive, so it is written out). -/
def Val.beq : Val → Val → Bool
  | .int a, .int b => a == b
  | .str a, .str b => a == b
  | .vnone, .vnone => true
  | .list a, .list b => Val.beqList a b
  | .dict a, .dict b => Val.beqDict a b
  | _, _ => false

def Val.beqList : List Val → List Val → Bool
  | [], [] => true
  | x :: xs, y :: ys => Val.beq x y && Val.beqList xs ys
  | _, _ => false

def Val.beqDict : List (String × Val) → List (String × Val) → Bool
  | [], [] => true
  | x :: xs, y :: ys => x.1 == y.1 && Val.beq x.2 y.2 && Val.beqDict xs ys
  | _, _ => false

end

mutual

theorem Val.eq_of_beq : ∀ a b, Val.beq a b = true → a = b
  | .int a, .int b, h => by
      simp only [Val.beq, beq_iff_eq] at h; exact congrArg Val.int h
  | .str a, .str b, h => by
      simp only [Val.beq, beq_iff_eq] at h; exact congrArg Val.str h
  | .vnone, .vnone, _ => rfl
  | .list a, .list b, h =>
      congrArg Val.list (Val.eqList_of_beqList a b (by simpa [Val.beq] using h))
  | .dict a, .dict b, h =>
      congrArg Val.dict (Val.eqDict_of_beqDict a b (by simpa [Val.beq] using h))
  | .int _, .str _, h => by simp [Val.beq] at h
  | .int _, .vnone, h => by simp [Val.beq] at h
  | .int _, .list _, h => by simp [Val.beq] at h
  | .int _, .dict _, h => by simp [Val.beq] at h
  | .str _, .int _, h => by simp [Val.beq] at h
  | .str _, .vnone, h => by simp [Val.beq] at h
  | .str _, .list _, h => by simp [Val.beq] at h
  | .str _, .dict _, h => by simp [Val.beq] at h
  | .vnone, .int _, h => by simp [Val.beq] at h
  | .vnone, .str _, h => by simp [Val.beq] at h
  | .vnone, .list _, h => by simp [Val.beq] at h
  | .vnone, .dict _, h => by simp [Val.beq] at h
  | .list _, .int _, h => by simp [Val.beq] at h
  | .list _, .str _, h => by simp [Val.beq] at h
  | .list _, .vnone, h => by simp [Val.beq] at h
  | .list _, .dict _, h => by simp [Val.beq] at h
  | .dict _, .int _, h => by simp [Val.beq] at h
  | .dict _, .str _, h => by simp [Val.beq] at h
  | .dict _, .vnone, h => by simp [Val.beq] at h
  | .dict _, .list _, h => by simp [Val.beq] at h

theorem Val.eqList_of_beqList : ∀ a b, Val.beqList a b = true → a = b
  | [], [], _ => rfl
  | x :: xs, y :: ys, h => by
      simp only [Val.beqList, Bool.and_eq_true] at h
      rw [Val.eq_of_beq x y h.1, Val.eqList_of_beqList xs ys h.2]
  | [], _ :: _, h => by simp [Val.beqList] at h
  | _ :: _, [], h => by simp [Val.beqList] at h

theorem Val.eqDict_of_beqDict : ∀ a b, Val.beqDict a b = true → a = b
  | [], [], _ => rfl
  | x :: xs, y :: ys, h => by
      simp only [Val.beqDict, Bool.and_eq_true, beq_iff_eq] at h
      rw [Val.eqDict_of_beqDict xs ys h.2]
      have hx : x = y := Prod.ext h.1.1 (Val.eq_of_beq x.2 y.2 h.1.2)
      rw [hx]
  | [], _ :: _, h => by simp [Val.beqDict] at h
  | _ :: _, [], h => by simp [Val.beqDict] at h

end

mutual

theorem Val.beq_refl : ∀ a, Val.beq a a = true
  | .int a => by simp [Val.beq]
  | .str a => by simp [Val.beq]
  | .vnone => rfl
  | .list a => by simpa [Val.beq] using Val.beqList_refl a
  | .dict a => by simpa [Val.beq] using Val.beqDict_refl a

theorem Val.beqList_refl : ∀ a, Val.beqList a a = true
  | [] => rfl
  | x :: xs => by
      simp only [Val.beqList, Bool.and_eq_true]
      exact ⟨Val.beq_refl x, Val.beqList_refl xs⟩

theorem Val.beqDict_refl : ∀ a, Val.beqDict a a = true
  | [] => rfl
  | x :: xs => by
      simp only [Val.beqDict, Bool.and_eq_true, beq_iff_eq]
      exact ⟨⟨trivial, Val.beq_refl x.2⟩, Val.beqDict_refl xs⟩

end

instance : DecidableEq Val := fun a b =>
  if h : Val.beq a b = true then isTrue (Val.eq_of_beq a b h)
  else isFalse (fun hh => h (hh ▸ Val.beq_refl a))

mutual

/-- Executable structural size of a value (the automatically generated
`SizeOf` instance of this nested inductive has no executable code), used
as fuel for the recursive walks.  The `+ 1` is written last so that every
weight is definitionally a successor. -/
def Val.weight : Val → Nat
  | .int _ => 1
  | .str _ => 1
  | .vnone => 1
  | .list l => Val.weightList l + 1
  | .dict d => Val.weightDict d + 1

def Val.weightList : List Val → Nat
  | [] => 1
  | v :: rest => Val.weight v + Val.weightList rest + 1

def Val.weightDict : List (String × Val) → Nat
  | [] => 1
  | kv :: rest => Val.weight kv.2 + Val.weightDict rest + 1

end

/-- The failure modes of the module.  `noMain`, `parallelLoops`,
`noInnerLoops`, `templateNotFound` and `zipMismatch` are the `ValueError`s
raised explicitly by the source; `attributeError`, `typeError`,
`keyError` and `indexError` model Python exceptions that escape uncaught
(e.g. `p.pop` on a scalar template, `outer_parameters[...]` on a missing
index key, boolean-mask indexing of a size-0 combination array); `fuelOut`
is an artefact of the fuel-based embedding. -/
inductive Err where
  | noMain
  | parallelLoops
  | noInnerLoops
  | templateNotFound
  | zipMismatch
  | attributeError
  | typeError
  | keyError
  | indexError
  | fuelOut
deriving Repr, DecidableEq

instance {ε α : Type} [DecidableEq ε] [DecidableEq α] : DecidableEq (Except ε α) :=
  fun a b =>
    match a, b with
    | .error e1, .error e2 =>
      if h : e1 = e2 then isTrue (by rw [h]) else isFalse (by intro hh; cases hh; exact h rfl)
    | .ok x, .ok y =>
      if h : x = y then isTrue (by rw [h]) else isFalse (by intro hh; cases hh; exact h rfl)
    | .error _, .ok _ => isFalse (by intro hh; cases hh)
    | .ok _, .error _ => isFalse (by intro hh; cases hh)

/-! ### Dictionary primitives (Python `dict` semantics) -/

/-- `d[k]` lookup: first binding of `k`.  (Real Python dicts have unique
keys; `dget` takes the first binding so that well-formed inputs behave
exactly like Python.) -/
def dget : Dict → String → Option Val
  | [], _ => none
  | kv :: rest, k => if kv.1 = k then some kv.2 else dget rest k

/-- `k in d`. -/
def dhasKey (d : Dict) (k : String) : Bool :=
  (dget d k).isSome

/-- `d[k] = v`: updating an existing key keeps its position, a new key is
appended at the end (Python insertion-order semantics). -/
def dinsert : Dict → String → Val → Dict
  | [], k, v => [(k, v)]
  | kv :: rest, k, v => if kv.1 = k then (k, v) :: rest else kv :: dinsert rest k v

/-- `d.pop(k, default)` restricted to the removal part: drop the binding
of `k`. -/
def dremove : Dict → String → Dict
  | [], _ => []
  | kv :: rest, k => if kv.1 = k then dremove rest k else kv :: dremove rest k

/-- `a | b` / `reduce(operator.ior, ...)`: left operand updated by the
right operand, right values winning on collision, new keys appended in the
right operand's order. -/
def dmerge (a b : Dict) : Dict :=
  b.foldl (fun acc kv => dinsert acc kv.1 kv.2) a

/-- The value of a dict: used to decide `isinstance(v, dict)`. -/
def isDictV : Val → Bool
  | .dict _ => true
  | _ => false

/-- `[v for v in d.values() if isinstance(v, dict)]`. -/
def childDicts (d : Dict) : List Dict :=
  d.filterMap (fun kv => match kv.2 with
    | .dict c => some c
    | _ => none)

/-- Dict-valued entries of `d` together with their keys (used to keep the
threaded root mapping in sync with the walk). -/
def dictChildren (d : Dict) : List (String × Dict) :=
  d.filterMap (fun kv => match kv.2 with
    | .dict c => some (kv.1, c)
    | _ => none)

/-- `any(isinstance(v, dict) for v in d.values())`. -/
def hasDictValue (d : Dict) : Bool :=
  d.any (fun kv => isDictV kv.2)

/-! ### `ParameterCombination` (source lines 208-284)

The numpy boolean-array mechanics are embedded as the equivalent explicit
per-tuple test, exactly as the design notes of the module describe them:
`get_zip_index g` assigns `range(ndim)` to every swept axis whose zip tag
equals the non-empty string `g` and a full slice to every other axis, so a
flat position is selected iff all axes tagged `g` carry the same index.
The axes tagged `g` broadcast against each other, which raises
(`IndexError` → `ValueError("Mismatch in zip_group length...")`) iff two of
them have different sizes (every swept size is ≥ 2, so no size-1
broadcasting can occur).  An axis whose tag is `None` — or the empty
string, which is falsy in `name and name == zip_group` — is never
restricted.  `np.logical_and.reduce` of the per-group masks selects a
tuple iff every group's constraint holds. -/

/-- `itertools.product(*lists)`: standard nested order, first list varying
slowest. -/
def prodLists {α : Type} : List (List α) → List (List α)
  | [] => [[]]
  | l :: ls => l.flatMap (fun x => (prodLists ls).map (fun t => x :: t))

/-- `__init__` value normalisation: every non-list becomes a singleton
list. -/
def normalizeVal : Val → List Val
  | .list l => l
  | v => [v]

/-- `str.split("#")` on the character list: split at every `#`. -/
def splitHash : List Char → List (List Char)
  | [] => [[]]
  | c :: rest =>
    if c = '#' then [] :: splitHash rest
    else
      match splitHash rest with
      | [] => [[c]]
      | hd :: tl => (c :: hd) :: tl

/-- `str.split("#zip_")` on the character list: non-overlapping
left-to-right splitting at the five-character separator. -/
def splitZipSep : List Char → List (List Char)
  | '#' :: 'z' :: 'i' :: 'p' :: '_' :: rest => [] :: splitZipSep rest
  | c :: rest =>
    match splitZipSep rest with
    | [] => [[c]]
    | hd :: tl => (c :: hd) :: tl
  | [] => [[]]

/-- `name.split("#")[0]`. -/
def pureName (n : String) : String :=
  String.mk ((splitHash n.data).headD n.data)

/-- `get_zip_group`: the text between the first `#zip_` and the next `#`,
or `None`. -/
def get_zip_group (n : String) : Option String :=
  match splitZipSep n.data with
  | _ :: second :: _ => some (String.mk ((splitHash second).headD second))
  | _ => none

structure ParameterCombination where
  names : List String
  values : List (List Val)
deriving Repr, DecidableEq

namespace ParameterCombination

/-- `ParameterCombination(parameters)`. -/
def ofDict (p : Dict) : ParameterCombination :=
  ⟨p.map (fun kv => kv.1), p.map (fun kv => normalizeVal kv.2)⟩

/-- Zip tag and size of every swept (length > 1) parameter, in declaration
order: the data of `self.shape` paired with `self.zip_groups`. -/
def sweptGroups (pc : ParameterCombination) : List (Option String × Nat) :=
  (pc.names.zip pc.values).filterMap (fun nv =>
    if 1 < nv.2.length then some (get_zip_group nv.1, nv.2.length) else none)

/-- Whether `get_zip_index` raises for some group: two swept axes share
the same non-empty zip tag but have different sizes. -/
def hasZipMismatch (pc : ParameterCombination) : Bool :=
  pc.sweptGroups.any (fun gl => match gl.1 with
    | some g =>
        decide (g ≠ "") && pc.sweptGroups.any (fun gl2 =>
          gl2.1 = some g ∧ gl2.2 ≠ gl.2)
    | none => false)

/-- Whether the flattened combination-index mask selects the tuple whose
swept coordinates (tag, position) are `gi`: every two axes sharing a
non-empty tag sit at the same position. -/
def validIdx (gi : List (Option String × Nat)) : Bool :=
  gi.all (fun p => match p.1 with
    | some g => g = "" ∨ gi.all (fun q => q.1 ≠ some g ∨ q.2 = p.2)
    | none => true)

/-- The swept (tag, position) coordinates of a full index tuple. -/
def sweptIdx (pc : ParameterCombination) (idx : List Nat) : List (Option String × Nat) :=
  ((pc.names.zip pc.values).zip idx).filterMap (fun x =>
    if 1 < x.1.2.length then some (get_zip_group x.1.1, x.2) else none)

/-- All full index tuples, in `itertools.product` order. -/
def indexTuples (pc : ParameterCombination) : List (List Nat) :=
  prodLists (pc.values.map (fun v => List.range v.length))

/-- `dict(zip(pure_names, combination))`: built left to right, so on a
pure-name collision the first occurrence keeps its position and the last
value wins, as in Python. -/
def buildDict (names : List String) (tuple : List Val) : Dict :=
  (((names.map pureName).zip tuple)).foldl (fun d kv => dinsert d kv.1 kv.2) []

/-- The combination selected by a full index tuple. -/
def comboOfIdx (pc : ParameterCombination) (idx : List Nat) : Dict :=
  buildDict pc.names ((pc.values.zip idx).map (fun vj => vj.1.getD vj.2 Val.vnone))

/-- `np.array(all_combinations)[i_valid].tolist()`: the cartesian product
filtered by the mask, order preserved. -/
def combosRaw (pc : ParameterCombination) : List Dict :=
  pc.indexTuples.filterMap (fun idx =>
    if validIdx (pc.sweptIdx idx) then some (pc.comboOfIdx idx) else none)

/-- The `combinations` property: the filtered product, or the
zip-length-mismatch `ValueError`, raised while the boolean mask is built
and therefore first.  When some value list is empty the `itertools`
product is empty while the flattened mask has `∏ (len > 1 sizes) ≥ 1`
entries (for no swept axes, `np.logical_and.reduce([])` is the scalar
`True`, whose `flatten()` has one entry), so
`np.array(all_combinations)[i_valid]` raises an uncaught `IndexError`. -/
def combinations (pc : ParameterCombination) : Except Err (List Dict) :=
  if pc.hasZipMismatch then .error .zipMismatch
  else if pc.values.any (fun v => v.length = 0) then .error .indexError
  else .ok pc.combosRaw

end ParameterCombination

/-! ### Template resolver (`flatten_multidimensional_list`, `fill_template`) -/

/-- `flatten_multidimensional_list`, fuelled.  Fuel is consumed on every
step; `sizeOf` of the list strictly dominates the recursion, so the
wrapper below never exhausts it. -/
def flattenF : Nat → List Val → Option (List Val)
  | 0, _ => none
  | _ + 1, [] => some []
  | f + 1, v :: rest =>
    match v with
    | .list l =>
      match flattenF f l, flattenF f rest with
      | some a, some b => some (a ++ b)
      | _, _ => none
    | _ => (flattenF f rest).map (fun b => v :: b)

def flatten_multidimensional_list (l : List Val) : Option (List Val) :=
  flattenF (Val.weightList l) l

/-- The `for value in values` loop of `fill_template`.  A `None` or dict
entry passes through; a string entry is looked up at the top level of the
(threaded) root mapping.  A hit that is a dict has its own
`setup`/`teardown` popped — mutating the template inside the root — and is
expanded through `ParameterCombination`; the expansion list is appended as
a single element.  A missing key raises `KeyError` and a list value
raises `TypeError` from `list.pop('setup', None)`, both caught and
re-raised as the "Template not found" `ValueError`; any other value
(int, string, `None`) raises `AttributeError` from `.pop`, which the
`except (TypeError, KeyError)` clause does NOT catch.  A non-string,
non-dict entry (e.g. an int) is looked up as a key, misses, and becomes
"Template not found" as well. -/
def fillEntries : Dict → List Val → Except Err (List Val × Dict)
  | root, [] => .ok ([], root)
  | root, v :: rest =>
    match v with
    | .str s =>
      match dget root s with
      | none => .error .templateNotFound
      | some (.dict p) =>
        let p2 := dremove (dremove p "setup") "teardown"
        let root2 := dinsert root s (.dict p2)
        match (ParameterCombination.ofDict p2).combinations with
        | .error e => .error e
        | .ok combos =>
          (fillEntries root2 rest).map (fun q =>
            (Val.list (combos.map Val.dict) :: q.1, q.2))
      | some (.list _) => .error .templateNotFound
      | some _ => .error .attributeError
    | .vnone => (fillEntries root rest).map (fun q => (v :: q.1, q.2))
    | .dict _ => (fillEntries root rest).map (fun q => (v :: q.1, q.2))
    | _ => .error .templateNotFound

/-- `fill_template(parameters, values)`: `None` yields `[]`; otherwise
`values` is flattened and resolved entry by entry.  The flattening
`for item in lst` iterates any iterable: a list over its elements
(recursing into list items only), a string over its one-character
substrings and a dict over its keys — for strings and dicts no item is a
list, so the flattening is their item sequence itself.  A non-iterable
argument (an int, here also the model's `None` value standing for a
nested `None`) raises an uncaught `TypeError`. -/
def fill_template (root : Dict) (values : Val) : Except Err (List Val × Dict) :=
  match values with
  | .vnone => .ok ([], root)
  | .list l =>
    match flattenF (Val.weightList l) l with
    | none => .error .fuelOut
    | some flat => fillEntries root flat
  | .str s => fillEntries root (s.data.map (fun c => .str (String.mk [c])))
  | .dict d => fillEntries root (d.map (fun kv => .str kv.1))
  | _ => .error .typeError

/-! ### `check_validity` (source lines 62-83) -/

/-- The `while any(next_loop := ...)` walk.  Note the Python truthiness of
the condition: the loop body runs only while some child dict is
non-empty.  Inside, more than one child dict of which any (over all
children) has a dict value is a parallel-loop error; otherwise descend
into the first child dict. -/
def checkLoopF : Nat → Dict → Except Err Unit
  | 0, _ => .error .fuelOut
  | f + 1, d =>
    match childDicts d with
    | [] => .ok ()
    | d0 :: rest =>
      if (d0 :: rest).any (fun c => !c.isEmpty) then
        if 1 < (d0 :: rest).length ∧ (d0 :: rest).any hasDictValue then
          .error .parallelLoops
        else checkLoopF f d0
      else .ok ()

/-- `check_validity(parameters)`: a missing entry point is
`ValueError("No main loop found.")`; a non-dict entry point raises
`AttributeError` at `outer_loop.values()`. -/
def check_validity (p : Dict) : Except Err Unit :=
  match dget p "main" with
  | none => .error .noMain
  | some (.dict m) => checkLoopF (Val.weightDict m + 1) m
  | some _ => .error .attributeError

/-! ### `_get_indexed_combinations` (source lines 183-205) -/

/-- `f"__index_{i}"`. -/
def idxKey (l : Nat) : String := "__index_" ++ toString l

/-- The `i_inner is None` mode: tag each combination with its position
under `__index_<level>`. -/
def _get_indexed_outer (combos : List Dict) (i_level : Nat) : List Dict :=
  combos.enum.map (fun ic => dinsert ic.2 (idxKey i_level) (Val.int (ic.1 : Int)))

/-- The `i_inner` mode: additionally store the composite index
`[c["__index_0"], ..., c["__index_i_level"]]` under `__index` and the
test position under `__index_test`.  A missing per-level key is a Python
`KeyError`. -/
def _get_indexed_inner (combos : List Dict) (nL : Nat) (iT : Nat) : Except Err (List Dict) :=
  combos.enum.mapM (fun ic =>
    match (List.range (nL + 1)).mapM (fun l =>
      match dget (dinsert ic.2 (idxKey nL) (Val.int (ic.1 : Int))) (idxKey l) with
      | some v => Except.ok v
      | none => Except.error Err.keyError) with
    | .error e => .error e
    | .ok ixs =>
      .ok (dinsert (dinsert (dinsert ic.2 (idxKey nL) (Val.int (ic.1 : Int)))
        "__index" (Val.list ixs)) "__index_test" (Val.int (iT : Int))))

/-! ### `_extract_skeleton` (source lines 103-133)

`this_level` in the source is an alias into the caller's mapping, and the
loop mutates it (`pop`) level by level; `fill_template` additionally
mutates top-level template entries.  The embedding therefore threads the
full root mapping and a key path to the current level, mirroring every
mutation into the root with `modifyAt`. -/

structure LoopSkeleton where
  setups : List Val
  teardowns : List Val
  yield_values : Val
  tests : List Dict
  outer_combinations : List (List Dict)
deriving Repr, DecidableEq

/-- Apply `f` to the sub-dict reached by following `path`. -/
def modifyAt (d : Dict) : List String → (Dict → Dict) → Dict
  | [], f => f d
  | k :: ks, f =>
    match dget d k with
    | some (.dict sub) => dinsert d k (.dict (modifyAt sub ks f))
    | _ => d

/-- The `for test in tests` loop at the leaf level: resolve and assign
each test's own `setup` and `teardown` in declaration order, mirroring
the assignments into the root at `path ++ [k]`. -/
def fillTests (path : List String) : Dict → List (String × Dict) → Except Err (List Dict × Dict)
  | root, [] => .ok ([], root)
  | root, (k, c) :: rest =>
    match fill_template root ((dget c "setup").getD .vnone) with
    | .error e => .error e
    | .ok (sF, root1) =>
      let c1 := dinsert c "setup" (.list sF)
      let root2 := modifyAt root1 path (fun d => dinsert d k (.dict c1))
      match fill_template root2 ((dget c1 "teardown").getD .vnone) with
      | .error e => .error e
      | .ok (tF, root3) =>
        let c2 := dinsert c1 "teardown" (.list tF)
        let root4 := modifyAt root3 path (fun d => dinsert d k (.dict c2))
        match fillTests path root4 rest with
        | .error e => .error e
        | .ok (ts, root5) => .ok (c2 :: ts, root5)

/-- The `while True` extraction walk.  Per level: pop `setup`,
`teardown`, `yield_values`; build the level's outer combination set from
its non-dict entries (which can raise the zip-mismatch error); stop with
"No inner loops found" when there is no child dict; when the first child
dict has no dict values, all child dicts are the leaf tests; otherwise
descend into the first child dict. -/
def extractLoopF : Nat → Dict → List String → Dict → Nat → List Val → List Val → Val →
    List (List Dict) →
    Except Err (List Val × List Val × Val × List Dict × List (List Dict) × Dict)
  | 0, _, _, _, _, _, _, _, _ => .error .fuelOut
  | f + 1, root, path, level, iLevel, setups, teardowns, yv, outer =>
    let s := (dget level "setup").getD .vnone
    let t := (dget level "teardown").getD .vnone
    let yv2 := (dget level "yield_values").getD yv
    let lvl := dremove (dremove (dremove level "setup") "teardown") "yield_values"
    let root2 := modifyAt root path
      (fun d => dremove (dremove (dremove d "setup") "teardown") "yield_values")
    let setups2 := setups ++ [s]
    let teardowns2 := teardowns ++ [t]
    let p := lvl.filter (fun kv => !isDictV kv.2)
    match (ParameterCombination.ofDict p).combinations with
    | .error e => .error e
    | .ok combos =>
      let outer2 := outer ++ [_get_indexed_outer combos iLevel]
      match dictChildren lvl with
      | [] => .error .noInnerLoops
      | (k0, d0) :: rest =>
        if hasDictValue d0 then
          extractLoopF f root2 (path ++ [k0]) d0 (iLevel + 1) setups2 teardowns2 yv2 outer2
        else
          match fillTests path root2 ((k0, d0) :: rest) with
          | .error e => .error e
          | .ok (tests, root3) => .ok (setups2, teardowns2, yv2, tests, outer2, root3)

/-- `_extract_skeleton(parameters)`: run the walk from the entry point,
then resolve the collected per-level `setup`/`teardown` lists through the
template table (the threaded root). -/
def _extract_skeleton (parameters : Dict) :
    Except Err (LoopSkeleton × Dict) :=
  match dget parameters "main" with
  | some (.dict m) =>
    match extractLoopF (Val.weightDict m + 1) parameters ["main"] m 0 [] [] .vnone [] with
    | .error e => .error e
    | .ok (setups, teardowns, yv, tests, outer, root) =>
      match fill_template root (.list setups) with
      | .error e => .error e
      | .ok (newS, root2) =>
        match fill_template root2 (.list teardowns) with
        | .error e => .error e
        | .ok (newT, root3) => .ok (⟨newS, newT, yv, tests, outer⟩, root3)
  | _ => .error .attributeError

/-! ### Sequence generator (`get_combinations`, source lines 12-59) -/

/-- `outer_parameters[f"__index_{i}"]`: a Python `KeyError` when
missing. -/
def idxLookup (op : Dict) (i : Nat) : Except Err Val :=
  match dget op (idxKey i) with
  | some v => .ok v
  | none => .error .keyError

/-- The `for i, (setup, teardown) in enumerate(zip(setups, teardowns))`
rollover loop: skip level 0; for level `i`, if
`outer_index(i) == 0 and outer_index(i-1) != 0` (with Python's
short-circuit evaluation order for the failing lookups), emit a teardown
event then a setup event for that level. -/
def rollGo (op : Dict) : List (Nat × (Val × Val)) → Except Err (List Dict)
  | [] => .ok []
  | (i, st) :: rest =>
    if i = 0 then rollGo op rest
    else
      match idxLookup op i with
      | .error e => .error e
      | .ok v =>
        if v = Val.int 0 then
          match idxLookup op (i - 1) with
          | .error e => .error e
          | .ok v2 =>
            match rollGo op rest with
            | .error e => .error e
            | .ok tail =>
              if v2 ≠ Val.int 0 then
                .ok ([("teardown", st.2)] :: [("setup", st.1)] :: tail)
              else .ok tail
        else rollGo op rest

def rolloverEvents (setups teardowns : List Val) (op : Dict) : Except Err (List Dict) :=
  rollGo op (setups.zip teardowns).enum

/-- One leaf test inside one outer tuple: work on a copy, pop `setup`,
`teardown` and `yield` (defaulting to the inherited yield values), merge
outer parameters with the test's own (test values win), compute the
indexed combinations, attach the yield value, and emit
setup event / combinations / teardown event. -/
def runTestBlock (op : Dict) (nL : Nat) (yv : Val) (iT : Nat) (test : Dict) :
    Except Err (List Dict) :=
  match (ParameterCombination.ofDict (dmerge op
      (dremove (dremove (dremove test "setup") "teardown") "yield"))).combinations with
  | .error e => .error e
  | .ok cs =>
    match _get_indexed_inner cs nL iT with
    | .error e => .error e
    | .ok cs2 =>
      .ok ([("setup", (dget test "setup").getD .vnone)]
        :: cs2.map (fun c => dinsert c "yield"
            ((dget (dremove (dremove test "setup") "teardown") "yield").getD yv))
        ++ [[("teardown", (dget (dremove test "setup") "teardown").getD .vnone)]])

/-- The body of `for outer_combination in product(*outer_combinations)`:
merge the tuple (`reduce(operator.ior, ..., {})`), emit the rollover
events, then each test's block in declaration order. -/
def runTuple (setups teardowns : List Val) (yv : Val) (tests : List Dict)
    (tuple : List Dict) : Except Err (List Dict) :=
  let op := tuple.foldl dmerge []
  match rolloverEvents setups teardowns op with
  | .error e => .error e
  | .ok roll =>
    match tests.enum.mapM (fun it => runTestBlock op setups.length yv it.1 it.2) with
    | .error e => .error e
    | .ok tbs => .ok (roll ++ tbs.flatten)

/-- `get_combinations(parameters)` together with the final state of the
caller's mapping (the source mutates its argument in place; the returned
`Dict` is what the caller's dictionary holds after the call). -/
def get_combinations_state (parameters : Dict) : Except Err (List Dict × Dict) :=
  match check_validity parameters with
  | .error e => .error e
  | .ok _ =>
    match _extract_skeleton parameters with
    | .error e => .error e
    | .ok (sk, root) =>
      match (prodLists sk.outer_combinations).mapM
          (runTuple sk.setups sk.teardowns sk.yield_values sk.tests) with
      | .error e => .error e
      | .ok blocks =>
        .ok ([("setup", Val.list sk.setups)] :: blocks.flatten
              ++ [[("teardown", Val.list sk.teardowns.reverse)]], root)

/-- The list returned by `get_combinations(parameters)`. -/
def get_combinations (parameters : Dict) : Except Err (List Dict) :=
  (get_combinations_state parameters).map Prod.fst

/-! ### Observations on the output sequence

Setup and teardown events are exactly the singleton dicts
`{"setup": ...}` / `{"teardown": ...}`; test combinations always carry
an `__index_test` key, so the three kinds of output element never
coincide. -/

def isSetupEvent (d : Dict) : Bool := d.map Prod.fst = ["setup"]

def isTeardownEvent (d : Dict) : Bool := d.map Prod.fst = ["teardown"]

def isTestCombination (d : Dict) : Bool := dhasKey d "__index_test"

def countSetupEvents (l : List Dict) : Nat := l.countP isSetupEvent

def countTeardownEvents (l : List Dict) : Nat := l.countP isTeardownEvent

/-! ### Specification-side definitions

These follow the wording of the specification, to be compared with the
definitions embedded from the source. -/

/-- Modelled from the spec: "order matches standard nested iteration with
the first-declared parameter varying slowest" — the plain cartesian
product over the normalised value lists in declaration order, each tuple
turned into a mapping under the group-stripped parameter names. -/
def cartesianCombos (p : Dict) : List Dict :=
  (prodLists (p.map (fun kv => normalizeVal kv.2))).map
    (ParameterCombination.buildDict (p.map Prod.fst))

/-- Modelled from the spec: a parameter of `p` is a *member of zip group
`g` at a swept dimension* when its normalised value list has more than one
element and its name carries the `#zip_<g>` tag.  `dimsOf` lists, in
declaration order, each parameter's membership flag and dimension size. -/
def dimsOf (p : Dict) (g : String) : List (Bool × Nat) :=
  p.map (fun kv =>
    (decide (1 < (normalizeVal kv.2).length) &&
      decide (get_zip_group kv.1 = some g), (normalizeVal kv.2).length))

/-- The index-tuple coordinates sitting at group-member dimensions. -/
def markedVals : List (Bool × Nat) → List Nat → List Nat
  | [], _ => []
  | _, [] => []
  | d :: dims, j :: idx => if d.1 then j :: markedVals dims idx else markedVals dims idx

/-- "Require all members of the group to be at the same position":
group-member coordinates must all be equal (and equal to the committed
position `st`, once one has been seen). -/
def allEqMarked : List (Bool × Nat) → Option Nat → List Nat → Bool
  | [], _, _ => true
  | _, _, [] => true
  | d :: dims, st, j :: idx =>
    if d.1 then
      match st with
      | some t => j = t ∧ allEqMarked dims (some t) idx
      | none => allEqMarked dims (some j) idx
    else allEqMarked dims st idx

/-- Modelled from the spec: "restrict that group's axes to their shared
diagonal ... while leaving every other axis unrestricted" — the index
tuples of the cartesian product in which all group-member coordinates
agree, in product order. -/
def diagProd : List (Bool × Nat) → Option Nat → List (List Nat)
  | [], _ => [[]]
  | d :: dims, st =>
    if d.1 then
      match st with
      | some t =>
        if t < d.2 then (diagProd dims (some t)).map (fun idx => t :: idx) else []
      | none =>
        (List.range d.2).flatMap (fun x => (diagProd dims (some x)).map (fun idx => x :: idx))
    else
      (List.range d.2).flatMap (fun x => (diagProd dims st).map (fun idx => x :: idx))

/-- The sizes of all dimensions that are not members of the group (swept
parameters outside the group, singletons, empties). -/
def unmarkedSizes (p : Dict) (g : String) : List Nat :=
  (dimsOf p g).filterMap (fun d => if d.1 then none else some d.2)

/-- Modelled from the spec: "some level below the entry point contains
more than one child mapping and at least one of those children itself
contains a nested mapping" — the level is the tree root or any
dict-valued descendant. -/
inductive HasParallel : Dict → Prop where
  | here : ∀ {d : Dict},
      1 < (childDicts d).length → (childDicts d).any hasDictValue = true →
      HasParallel d
  | there : ∀ {d c : Dict},
      c ∈ childDicts d → HasParallel c → HasParallel d

/-! ### Concrete specifications used by the individual claims -/

/-- One outer level (the entry point itself) sweeping
`temperature: [25, 26, 27]` over a single leaf test sweeping
`param: [1, 2]`: the worked example of the specification. -/
def c6spec : Dict := [("main", .dict [
  ("temperature", .list [.int 25, .int 26, .int 27]),
  ("test", .dict [("param", .list [.int 1, .int 2])])])]

def c6out : List Dict := ((get_combinations c6spec).toOption).getD []

/-- Three extracted levels, each sweeping a two-value parameter and each
carrying its own distinguishable setup/teardown payload; the single leaf
test is empty. -/
def spec3deep : Dict := [("main", .dict [
  ("setup", .list [.dict [("s", .int 0)]]),
  ("teardown", .list [.dict [("t", .int 0)]]),
  ("a", .list [.int 0, .int 1]),
  ("L1", .dict [
    ("setup", .list [.dict [("s", .int 1)]]),
    ("teardown", .list [.dict [("t", .int 1)]]),
    ("b", .list [.int 0, .int 1]),
    ("L2", .dict [
      ("setup", .list [.dict [("s", .int 2)]]),
      ("teardown", .list [.dict [("t", .int 2)]]),
      ("c", .list [.int 0, .int 1]),
      ("T", .dict [])])])])]

def spec3out : List Dict := ((get_combinations spec3deep).toOption).getD []

/-- A minimal specification whose entry level holds a `setup` key and one
leaf test. -/
def c4spec : Dict := [("main", .dict [
  ("setup", .list [.dict [("h", .int 1)]]),
  ("x", .dict [("p", .list [.int 1, .int 2])])])]

def c4finalState : Dict :=
  (((get_combinations_state c4spec).toOption).getD ([], [])).2

/-- The repository's own mismatched-zip-group test input. -/
def zipMismatchSpec : Dict := [("main", .dict [
  ("faulty", .dict [
    ("param_1#zip_faulty", .list [.int 1, .int 2, .int 3]),
    ("param_2#zip_faulty", .list [.str "a", .str "b"])])])]

/-- Two sibling non-leaf mappings below the entry point. -/
def parallelSpec : Dict := [("main", .dict [
  ("outer", .dict [
    ("inner", .dict [("param_1", .list [.int 1, .int 2])]),
    ("inner2", .dict [("param_2", .dict [("deep", .int 1)])])])])]

/-! ### Helper lemmas: dictionary primitives -/

theorem dget_dinsert_self (d : Dict) (k : String) (v : Val) :
    dget (dinsert d k v) k = some v := by
  induction d with
  | nil => simp [dinsert, dget]
  | cons kv rest ih =>
    by_cases h : kv.1 = k
    · simp [dinsert, dget, h]
    · simp [dinsert, dget, h, ih]

theorem dget_dinsert_ne (d : Dict) {k2 k : String} (h : k2 ≠ k) (v : Val) :
    dget (dinsert d k2 v) k = dget d k := by
  induction d with
  | nil => simp [dinsert, dget, h]
  | cons kv rest ih =>
    by_cases h2 : kv.1 = k2
    · have hne : kv.1 ≠ k := by rw [h2]; exact h
      simp [dinsert, dget, h2, h, hne]
    · simp only [dinsert, if_neg h2]
      by_cases h3 : kv.1 = k <;> simp [dget, h3, ih]

theorem dhasKey_dinsert_self (d : Dict) (k : String) (v : Val) :
    dhasKey (dinsert d k v) k = true := by
  simp [dhasKey, dget_dinsert_self]

theorem dhasKey_dinsert_of (d : Dict) (k k2 : String) (v : Val)
    (h : dhasKey d k = true) : dhasKey (dinsert d k2 v) k = true := by
  by_cases e : k2 = k
  · subst e; simp [dhasKey, dget_dinsert_self]
  · simpa [dhasKey, dget_dinsert_ne d e v] using h

theorem mem_keys_of_dhasKey {d : Dict} {k : String} (h : dhasKey d k = true) :
    k ∈ d.map Prod.fst := by
  induction d with
  | nil => simp [dhasKey, dget] at h
  | cons kv rest ih =>
    by_cases h2 : kv.1 = k
    · simp [h2]
    · simp [dhasKey, dget, h2] at h
      simpa using Or.inr (ih (by simpa [dhasKey] using h))

theorem keys_dinsert_of_dhasKey {d : Dict} {k : String} (v : Val)
    (h : dhasKey d k = true) :
    (dinsert d k v).map Prod.fst = d.map Prod.fst := by
  induction d with
  | nil => simp [dhasKey, dget] at h
  | cons kv rest ih =>
    by_cases h2 : kv.1 = k
    · simp [dinsert, h2]
    · simp [dhasKey, dget, h2] at h
      simp [dinsert, h2, ih (by simpa [dhasKey] using h)]

theorem keys_modifyAt (d : Dict) (k : String) (ks : List String) (f : Dict → Dict) :
    (modifyAt d (k :: ks) f).map Prod.fst = d.map Prod.fst := by
  unfold modifyAt
  cases h : dget d k with
  | none => rfl
  | some v =>
    cases v with
    | dict sub =>
      exact keys_dinsert_of_dhasKey _ (by simp [dhasKey, h])
    | int n => rfl
    | str s => rfl
    | vnone => rfl
    | list l => rfl

/-! ### Helper lemmas: output-element recognizers -/

theorem isSetupEvent_singleton (v : Val) : isSetupEvent [("setup", v)] = true := by
  simp [isSetupEvent]

theorem isTeardownEvent_singleton (v : Val) : isTeardownEvent [("teardown", v)] = true := by
  simp [isTeardownEvent]

theorem isSetupEvent_teardown (v : Val) : isSetupEvent [("teardown", v)] = false := by
  simp [isSetupEvent]

theorem isTeardownEvent_setup (v : Val) : isTeardownEvent [("setup", v)] = false := by
  simp [isTeardownEvent]

theorem not_event_of_testkey {c : Dict} (h : dhasKey c "__index_test" = true) :
    isSetupEvent c = false ∧ isTeardownEvent c = false := by
  have hm : "__index_test" ∈ c.map Prod.fst := mem_keys_of_dhasKey h
  constructor
  · simp only [isSetupEvent, decide_eq_false_iff_not]
    intro he; rw [he] at hm; simp at hm
  · simp only [isTeardownEvent, decide_eq_false_iff_not]
    intro he; rw [he] at hm; simp at hm

theorem isTestCombination_of_testkey {c : Dict} (h : dhasKey c "__index_test" = true) :
    isTestCombination c = true := h

/-! ### Helper lemmas: decimal rendering of index keys

Needed to show that the bookkeeping keys `__index_<l>` never collide with
`__index`, `__index_test` or `yield`. -/

theorem toDigitsCore_digits (f : Nat) : ∀ (n : Nat) (ds : List Char),
    ∀ c ∈ Nat.toDigitsCore 10 f n ds, c ∈ ds ∨ c.isDigit = true := by
  induction f with
  | zero => intro n ds c hc; exact Or.inl hc
  | succ f ih =>
    intro n ds c hc
    have hdigit : (Nat.digitChar (n % 10)).isDigit = true := by
      have h10 : n % 10 < 10 := Nat.mod_lt _ (by norm_num)
      have hall : ∀ m < 10, (Nat.digitChar m).isDigit = true := by decide
      exact hall _ h10
    unfold Nat.toDigitsCore at hc
    by_cases hz : n / 10 = 0
    · simp only [hz, if_pos rfl] at hc
      rcases List.mem_cons.1 hc with h | h
      · exact Or.inr (h ▸ hdigit)
      · exact Or.inl h
    · simp only [if_neg hz] at hc
      rcases ih (n / 10) (Nat.digitChar (n % 10) :: ds) c hc with h | h
      · rcases List.mem_cons.1 h with h2 | h2
        · exact Or.inr (h2 ▸ hdigit)
        · exact Or.inl h2
      · exact Or.inr h

theorem toDigitsCore_ne_nil (f : Nat) : ∀ (n : Nat) (ds : List Char),
    Nat.toDigitsCore 10 f n ds = [] → ds = [] ∧ f = 0 := by
  induction f with
  | zero => intro n ds h; exact ⟨h, rfl⟩
  | succ f ih =>
    intro n ds h
    unfold Nat.toDigitsCore at h
    by_cases hz : n / 10 = 0
    · simp [hz] at h
    · simp only [if_neg hz] at h
      have := ih (n / 10) (Nat.digitChar (n % 10) :: ds) h
      simp at this

theorem natRepr_data_digits (n : Nat) : ∀ c ∈ (Nat.repr n).data, c.isDigit = true := by
  intro c hc
  have : c ∈ Nat.toDigitsCore 10 (n + 1) n [] := hc
  rcases toDigitsCore_digits (n + 1) n [] c this with h | h
  · simp at h
  · exact h

theorem natRepr_data_ne_nil (n : Nat) : (Nat.repr n).data ≠ [] := by
  intro h
  have := toDigitsCore_ne_nil (n + 1) n [] h
  simp at this

theorem idxKey_ne_index (l : Nat) : idxKey l ≠ "__index" := by
  intro h
  have hd : (idxKey l).data = "__index".data := by rw [h]
  have : ("__index_".data ++ (Nat.repr l).data) = "__index".data := hd
  have hlen := congrArg List.length this
  simp [List.length_append] at hlen

theorem idxKey_ne_yield (l : Nat) : idxKey l ≠ "yield" := by
  intro h
  have hd : (idxKey l).data = "yield".data := by rw [h]
  have : ("__index_".data ++ (Nat.repr l).data) = "yield".data := hd
  have hlen := congrArg List.length this
  simp [List.length_append] at hlen

/-! ### Helper lemmas: `Except` and `mapM` plumbing -/

theorem exceptMap_ok {α β : Type} (f : α → β) (x : Except Err α) (b : β)
    (h : x.map f = .ok b) : ∃ a, x = .ok a ∧ f a = b := by
  cases x with
  | error e => simp [Except.map] at h
  | ok a => exact ⟨a, rfl, by simpa [Except.map] using h⟩

theorem mapM_ok_forall {α β : Type} (f : α → Except Err β) (l : List α) :
    ∀ (res : List β), l.mapM f = .ok res → ∀ b ∈ res, ∃ a ∈ l, f a = .ok b := by
  induction l with
  | nil =>
    intro res h b hb
    simp only [List.mapM_nil, pure] at h
    cases h; simp at hb
  | cons a l ih =>
    intro res h b hb
    rw [List.mapM_cons] at h
    cases fa : f a with
    | error e => rw [fa] at h; simp [Bind.bind, Except.bind] at h
    | ok x =>
      rw [fa] at h
      cases hrest : l.mapM f with
      | error e => rw [hrest] at h; simp [Bind.bind, Except.bind] at h
      | ok xs =>
        rw [hrest] at h
        simp only [Bind.bind, Except.bind, pure, Except.pure, Except.ok.injEq] at h
        subst h
        rcases List.mem_cons.1 hb with hb | hb
        · exact ⟨a, List.mem_cons_self a l, hb ▸ fa⟩
        · rcases ih xs hrest b hb with ⟨a2, ha2, hfa2⟩
          exact ⟨a2, List.mem_cons_of_mem _ ha2, hfa2⟩

theorem mapM_ok_nth (f : Nat → Except Err Val) (l : List Nat) :
    ∀ res, l.mapM f = .ok res → res.length = l.length ∧
      ∀ i, i < l.length → f (l.getD i 0) = .ok (res.getD i Val.vnone) := by
  induction l with
  | nil =>
    intro res h
    simp only [List.mapM_nil, pure] at h
    cases h
    exact ⟨rfl, by intro i hi; simp at hi⟩
  | cons a l ih =>
    intro res h
    rw [List.mapM_cons] at h
    cases fa : f a with
    | error e => rw [fa] at h; simp [Bind.bind, Except.bind] at h
    | ok x =>
      rw [fa] at h
      cases hrest : l.mapM f with
      | error e => rw [hrest] at h; simp [Bind.bind, Except.bind] at h
      | ok xs =>
        rw [hrest] at h
        simp only [Bind.bind, Except.bind, pure, Except.pure, Except.ok.injEq] at h
        subst h
        rcases ih xs hrest with ⟨hlen, hnth⟩
        refine ⟨by simp [hlen], ?_⟩
        intro i hi
        cases i with
        | zero => simpa using fa
        | succ j => simpa using hnth j (by simpa using hi)

/-! ### Helper lemmas: balance of the generated event blocks -/

theorem rollGo_events (op : Dict) (l : List (Nat × (Val × Val))) :
    ∀ r, rollGo op l = .ok r →
      countSetupEvents r = countTeardownEvents r ∧
      ∀ e ∈ r, (∃ v, e = [("teardown", v)]) ∨ ∃ v, e = [("setup", v)] := by
  induction l with
  | nil =>
    intro r h
    simp only [rollGo] at h
    cases h
    exact ⟨rfl, by simp⟩
  | cons ist rest ih =>
    intro r h
    obtain ⟨i, st⟩ := ist
    simp only [rollGo] at h
    split at h
    · exact ih r h
    · split at h
      · cases h
      · split at h
        · split at h
          · cases h
          · split at h
            · cases h
            next tail ht =>
              rcases ih tail ht with ⟨hbal, hshape⟩
              split at h
              · cases h
                constructor
                · have hb : List.countP isSetupEvent tail = List.countP isTeardownEvent tail := hbal
                  simp [countSetupEvents, countTeardownEvents, List.countP_cons,
                    isSetupEvent, isTeardownEvent, hb]
                · intro e he
                  rcases List.mem_cons.1 he with he | he
                  · exact Or.inl ⟨st.2, he⟩
                  · rcases List.mem_cons.1 he with he | he
                    · exact Or.inr ⟨st.1, he⟩
                    · exact hshape e he
              · cases h; exact ⟨hbal, hshape⟩
        · exact ih r h

theorem indexed_inner_testkey (cs : List Dict) (nL iT : Nat) :
    ∀ res, _get_indexed_inner cs nL iT = .ok res →
      ∀ c ∈ res, dhasKey c "__index_test" = true := by
  intro res h c hc
  rcases mapM_ok_forall _ _ res h c hc with ⟨ic, _, hf⟩
  split at hf
  · cases hf
  · cases hf
    exact dhasKey_dinsert_self _ _ _

theorem runTestBlock_shape (op : Dict) (nL : Nat) (yv : Val) (iT : Nat) (test : Dict) :
    ∀ b, runTestBlock op nL yv iT test = .ok b →
      countSetupEvents b = countTeardownEvents b ∧
      ∀ c ∈ b, (∃ v, c = [("setup", v)]) ∨ (∃ v, c = [("teardown", v)]) ∨
        dhasKey c "__index_test" = true := by
  intro b h
  unfold runTestBlock at h
  split at h
  · cases h
  next cs hc =>
    split at h
    · cases h
    next cs2 hi =>
      cases h
      have htest : ∀ c ∈ cs2.map (fun c => dinsert c "yield"
          ((dget (dremove (dremove test "setup") "teardown") "yield").getD yv)),
          dhasKey c "__index_test" = true := by
        intro c hcmem
        rcases List.mem_map.1 hcmem with ⟨c2, hc2, hceq⟩
        rw [← hceq]
        exact dhasKey_dinsert_of _ _ _ _ (indexed_inner_testkey cs nL iT cs2 hi c2 hc2)
      constructor
      · have h0 : ∀ p : Dict → Bool, (p = isSetupEvent ∨ p = isTeardownEvent) →
            (cs2.map (fun c => dinsert c "yield"
              ((dget (dremove (dremove test "setup") "teardown") "yield").getD yv))).countP p = 0 := by
          intro p hp
          rw [List.countP_eq_zero]
          intro c hcmem
          rcases not_event_of_testkey (htest c hcmem) with ⟨h1, h2⟩
          rcases hp with hp | hp <;> rw [hp] <;> simp [h1, h2]
        simp only [countSetupEvents, countTeardownEvents, List.countP_cons,
          List.countP_append]
        rw [h0 isSetupEvent (Or.inl rfl), h0 isTeardownEvent (Or.inr rfl)]
        simp [isSetupEvent, isTeardownEvent]
      · intro c hcmem
        rcases List.mem_cons.1 hcmem with hm | hm
        · exact Or.inl ⟨_, hm⟩
        · rcases List.mem_append.1 hm with hm | hm
          · exact Or.inr (Or.inr (htest c hm))
          · rcases List.mem_singleton.1 hm with hm
            exact Or.inr (Or.inl ⟨_, hm⟩)

theorem runTuple_shape (setups teardowns : List Val) (yv : Val) (tests : List Dict)
    (tuple : List Dict) :
    ∀ b, runTuple setups teardowns yv tests tuple = .ok b →
      countSetupEvents b = countTeardownEvents b ∧
      ∀ c ∈ b, (∃ v, c = [("setup", v)]) ∨ (∃ v, c = [("teardown", v)]) ∨
        dhasKey c "__index_test" = true := by
  intro b h
  simp only [runTuple] at h
  split at h
  · cases h
  next roll hr =>
    split at h
    · cases h
    next tbs hm =>
      cases h
      rcases rollGo_events _ _ roll hr with ⟨hrb, hrs⟩
      have htb : ∀ tb ∈ tbs, countSetupEvents tb = countTeardownEvents tb ∧
          ∀ c ∈ tb, (∃ v, c = [("setup", v)]) ∨ (∃ v, c = [("teardown", v)]) ∨
            dhasKey c "__index_test" = true := by
        intro tb htbm
        rcases mapM_ok_forall _ _ tbs hm tb htbm with ⟨it, _, hok⟩
        exact runTestBlock_shape _ _ _ _ _ tb hok
      constructor
      · simp only [countSetupEvents, countTeardownEvents, List.countP_append,
          List.countP_flatten]
        have : tbs.map (List.countP isSetupEvent) = tbs.map (List.countP isTeardownEvent) := by
          apply List.map_congr_left
          intro tb htbm
          exact (htb tb htbm).1
        rw [this]
        simpa [countSetupEvents, countTeardownEvents] using congrArg (· + (tbs.map (List.countP isTeardownEvent)).sum) hrb
      · intro c hcmem
        rcases List.mem_append.1 hcmem with hm2 | hm2
        · rcases hrs c hm2 with ⟨v, hv⟩ | ⟨v, hv⟩
          · exact Or.inr (Or.inl ⟨v, hv⟩)
          · exact Or.inl ⟨v, hv⟩
        · rcases List.mem_flatten.1 hm2 with ⟨tb, htbm, hcm⟩
          exact (htb tb htbm).2 c hcm

/-- Success of `get_combinations` decomposed into its three parts. -/
theorem get_combinations_ok_parts (p : Dict) (out : List Dict)
    (h : get_combinations p = .ok out) :
    ∃ sk root blocks,
      _extract_skeleton p = .ok (sk, root) ∧
      (prodLists sk.outer_combinations).mapM
        (runTuple sk.setups sk.teardowns sk.yield_values sk.tests) = .ok blocks ∧
      out = [("setup", Val.list sk.setups)] :: blocks.flatten
        ++ [[("teardown", Val.list sk.teardowns.reverse)]] := by
  rcases exceptMap_ok Prod.fst _ out h with ⟨⟨out0, root⟩, hstate, hfst⟩
  simp only at hfst
  subst hfst
  simp only [get_combinations_state] at hstate
  split at hstate
  · cases hstate
  · split at hstate
    · cases hstate
    next sk root2 hex =>
      split at hstate
      · cases hstate
      next blocks hblocks =>
        rw [Except.ok.injEq, Prod.mk.injEq] at hstate
        obtain ⟨h1, _⟩ := hstate
        exact ⟨sk, root2, blocks, hex, hblocks, h1.symm⟩

/-- C1 (amended): for every specification on which `get_combinations`
succeeds, the output contains exactly as many setup events as teardown
events; the first element is the all-levels setup event (so no test
combination precedes the setups of its enclosing levels) and the last
element is the all-levels reversed teardown event.  The original claim's
final clause — that teardowns close in the reverse order their setups
opened — is false for three or more extracted levels (see the
counterexample) and is therefore dropped. -/
theorem C1_setup_teardown_pairing (p : Dict) (out : List Dict)
    (h : get_combinations p = .ok out) :
    countSetupEvents out = countTeardownEvents out ∧
    (∃ v, out.head? = some [("setup", v)]) ∧
    (∃ v, out.getLast? = some [("teardown", v)]) := by
  rcases get_combinations_ok_parts p out h with ⟨sk, root, blocks, hex, hblocks, hout⟩
  subst hout
  refine ⟨?_, ⟨Val.list sk.setups, rfl⟩, ⟨Val.list sk.teardowns.reverse, ?_⟩⟩
  · have hmaps : blocks.map (List.countP isSetupEvent)
        = blocks.map (List.countP isTeardownEvent) := by
      apply List.map_congr_left
      intro b hb
      rcases mapM_ok_forall _ _ blocks hblocks b hb with ⟨tuple, _, hok⟩
      exact (runTuple_shape sk.setups sk.teardowns sk.yield_values sk.tests tuple b hok).1
    simp only [countSetupEvents, countTeardownEvents, List.countP_cons,
      List.countP_append, List.countP_flatten, hmaps,
      isSetupEvent_singleton, isTeardownEvent_singleton,
      isSetupEvent_teardown, isTeardownEvent_setup]
    simp
  · rw [show [("setup", Val.list sk.setups)] :: blocks.flatten
        ++ [[("teardown", Val.list sk.teardowns.reverse)]]
      = ([("setup", Val.list sk.setups)] :: blocks.flatten)
        ++ [[("teardown", Val.list sk.teardowns.reverse)]] from by simp]
    exact List.getLast?_concat _

theorem idxKey_ne_indexTest (l : Nat) : idxKey l ≠ "__index_test" := by
  intro h
  have hd : (idxKey l).data = "__index_test".data := by rw [h]
  have hsplit : ("__index_".data ++ (Nat.repr l).data) =
      ("__index_".data ++ "test".data) := hd
  have hr : (Nat.repr l).data = "test".data := List.append_cancel_left hsplit
  have : ('t' : Char) ∈ (Nat.repr l).data := by rw [hr]; decide
  have := natRepr_data_digits l 't' this
  simp at this

/-! ### Helper lemmas: characterization of the rollover loop -/

theorem rollGo_enumFrom (op : Dict) (f : Nat → Int) (zs : List (Val × Val)) :
    ∀ n : Nat,
      (∀ i st, (i, st) ∈ zs.enumFrom n →
        dget op (idxKey i) = some (.int (f i)) ∧
        (i ≠ 0 → dget op (idxKey (i - 1)) = some (.int (f (i - 1))))) →
      rollGo op (zs.enumFrom n) = .ok ((zs.enumFrom n).flatMap (fun ist =>
        if ist.1 ≠ 0 ∧ f ist.1 = 0 ∧ f (ist.1 - 1) ≠ 0 then
          [[("teardown", ist.2.2)], [("setup", ist.2.1)]] else [])) := by
  induction zs with
  | nil => intro n _; simp [rollGo]
  | cons z zs ih =>
    intro n hop
    rw [List.enumFrom_cons]
    have hz := hop n z (by rw [List.enumFrom_cons]; exact List.mem_cons_self _ _)
    have hoptail : ∀ i st, (i, st) ∈ zs.enumFrom (n + 1) →
        dget op (idxKey i) = some (.int (f i)) ∧
        (i ≠ 0 → dget op (idxKey (i - 1)) = some (.int (f (i - 1)))) := by
      intro i st hmem
      exact hop i st (by rw [List.enumFrom_cons]; exact List.mem_cons_of_mem _ hmem)
    have htail := ih (n + 1) hoptail
    simp only [rollGo]
    by_cases hn : n = 0
    · rw [if_pos hn, htail]
      simp [hn]
    · rw [if_neg hn]
      have hl : idxLookup op n = .ok (.int (f n)) := by
        simp [idxLookup, hz.1]
      simp only [hl]
      by_cases hfn : f n = 0
      · have hv0 : (Val.int (f n)) = Val.int 0 := by rw [hfn]
        rw [if_pos hv0]
        have hl2 : idxLookup op (n - 1) = .ok (.int (f (n - 1))) := by
          simp [idxLookup, hz.2 hn]
        simp only [hl2, htail]
        by_cases hfn1 : f (n - 1) = 0
        · rw [if_neg (by simp [hfn1])]
          simp only [List.flatMap_cons]
          rw [if_neg (by simp [hfn1])]
          simp
        · rw [if_pos (by simp [hfn1])]
          simp only [List.flatMap_cons]
          rw [if_pos ⟨hn, hfn, hfn1⟩]
          simp
      · rw [if_neg (by simp [hfn]), htail]
        simp only [List.flatMap_cons]
        rw [if_neg (by simp [hfn])]
        simp


/-- C1 witness: the balance statement instantiated at the three-level
specification. -/
theorem C1_setup_teardown_pairing_witness :
    countSetupEvents spec3out = countTeardownEvents spec3out ∧
    (∃ v, spec3out.head? = some [("setup", v)]) ∧
    (∃ v, spec3out.getLast? = some [("teardown", v)]) :=
  C1_setup_teardown_pairing spec3deep spec3out rfl

/-- C1 counterexample: in the 34-element output of `spec3deep`, the
rollover setup event for level 2 is emitted at position 8, the next
teardown event for level 2 only at position 25, yet the teardown for the
earlier-opened level 1 is emitted in between at position 15 (with no
level-2 teardown in positions 9-14).  Teardown events therefore do not
close in the reverse order their setup events opened. -/
theorem C1_counterexample :
    (get_combinations spec3deep).toOption = some spec3out ∧
    spec3out.getD 8 [] = [("setup", Val.dict [("s", Val.int 2)])] ∧
    spec3out.getD 15 [] = [("teardown", Val.dict [("t", Val.int 1)])] ∧
    ((spec3out.drop 9).take 6).countP
      (fun e => e = [("teardown", Val.dict [("t", Val.int 2)])]) = 0 ∧
    spec3out.getD 25 [] = [("teardown", Val.dict [("t", Val.int 2)])] := by
  refine ⟨rfl, by decide, by decide, by decide, by decide⟩

/-- C5 (amended): inside one outer-combination tuple, a teardown event for
level `i` immediately followed by a setup event for level `i` is emitted
iff `i ≥ 1` and the tuple's level-`i` index component is `0` while its
level-`i-1` component is nonzero — one pair per qualifying level, for any
nesting depth.  This is a per-tuple predicate, not a "just reset"
transition: it can hold again on later tuples of the same enclosing
iteration (see the counterexample), which is the correction to the
original claim. -/
theorem C5_rollover_characterization (setups teardowns : List Val) (op : Dict)
    (f : Nat → Int)
    (hop : ∀ i st, (i, st) ∈ (setups.zip teardowns).enum →
      dget op (idxKey i) = some (.int (f i)) ∧
      (i ≠ 0 → dget op (idxKey (i - 1)) = some (.int (f (i - 1))))) :
    rolloverEvents setups teardowns op = .ok
      (((setups.zip teardowns).enum).flatMap (fun ist =>
        if ist.1 ≠ 0 ∧ f ist.1 = 0 ∧ f (ist.1 - 1) ≠ 0 then
          [[("teardown", ist.2.2)], [("setup", ist.2.1)]] else [])) :=
  rollGo_enumFrom op f (setups.zip teardowns) 0 hop

/-- C5 witness: three levels with merged indices `(1, 0, 0)`: exactly the
level-1 pair is emitted. -/
theorem C5_rollover_characterization_witness :
    rolloverEvents [Val.vnone, Val.vnone, Val.vnone] [Val.vnone, Val.vnone, Val.vnone]
      [("__index_0", Val.int 1), ("__index_1", Val.int 0), ("__index_2", Val.int 0)]
      = Except.ok [[("teardown", Val.vnone)], [("setup", Val.vnone)]] := by
  have h := C5_rollover_characterization
    [Val.vnone, Val.vnone, Val.vnone] [Val.vnone, Val.vnone, Val.vnone]
    [("__index_0", Val.int 1), ("__index_1", Val.int 0), ("__index_2", Val.int 0)]
    (fun i => if i = 0 then 1 else 0)
    (by intro i st hmem; fin_cases hmem <;> exact ⟨by decide, by intro h0; decide⟩)
  exact h.trans (congrArg Except.ok (by decide))

/-- C5 counterexample: with three extracted levels of size two each, the
level-1 teardown/setup pair is emitted at positions 15/16 (tuple
`(1,0,0)`) and again at positions 20/21 (tuple `(1,0,1)`), although the
combination emitted between them (position 18) shows level 1's index was
already `0` — the pair is emitted twice within the single new iteration
of the enclosing loop, refuting "exactly one such pair per new iteration"
and the "just reset" reading. -/
theorem C5_counterexample :
    spec3out.getD 15 [] = [("teardown", Val.dict [("t", Val.int 1)])] ∧
    spec3out.getD 16 [] = [("setup", Val.dict [("s", Val.int 1)])] ∧
    dget (spec3out.getD 18 []) "__index" =
      some (Val.list [Val.int 1, Val.int 0, Val.int 0, Val.int 0]) ∧
    spec3out.getD 20 [] = [("teardown", Val.dict [("t", Val.int 1)])] ∧
    spec3out.getD 21 [] = [("setup", Val.dict [("s", Val.int 1)])] ∧
    spec3out.countP (fun e => e = [("teardown", Val.dict [("t", Val.int 1)])]) = 2 := by
  refine ⟨by decide, by decide, by decide, by decide, by decide, by decide⟩

/-- C6: the specification's worked example — entry point sweeping
`temperature: [25,26,27]` over one leaf test sweeping `param: [1,2]` —
produces exactly 6 test combinations carrying composite indices `[t, p]`
for `t` in 0..2 and `p` in 0..1 (first-declared varying slowest), with
exactly 4 setup events and 4 teardown events. -/
theorem C6_worked_example :
    (get_combinations c6spec).toOption = some c6out ∧
    countSetupEvents c6out = 4 ∧
    countTeardownEvents c6out = 4 ∧
    (c6out.filter isTestCombination).length = 6 ∧
    (c6out.filter isTestCombination).map (fun c => dget c "__index") =
      [some (.list [.int 0, .int 0]), some (.list [.int 0, .int 1]),
       some (.list [.int 1, .int 0]), some (.list [.int 1, .int 1]),
       some (.list [.int 2, .int 0]), some (.list [.int 2, .int 1])] := by
  refine ⟨rfl, by decide, by decide, by decide, by decide⟩


/-! ### C9: parallel outer loops are rejected by the validity pre-check -/

theorem weightDict_pos (d : Dict) : 1 ≤ Val.weightDict d := by
  cases d <;> simp only [Val.weightDict] <;> omega

theorem weight_lt_of_mem {d : Dict} {kv : String × Val} (h : kv ∈ d) :
    Val.weight kv.2 < Val.weightDict d := by
  induction d with
  | nil => simp at h
  | cons a rest ih =>
    rcases List.mem_cons.1 h with h | h
    · subst h; simp only [Val.weightDict]; omega
    · have := ih h; simp only [Val.weightDict]; omega

theorem childDicts_mem {d c : Dict} (h : c ∈ childDicts d) :
    ∃ k, (k, Val.dict c) ∈ d := by
  rcases List.mem_filterMap.1 h with ⟨kv, hkv, hmatch⟩
  obtain ⟨k, v⟩ := kv
  cases v <;> simp at hmatch
  subst hmatch
  exact ⟨k, hkv⟩

theorem weightDict_child_lt {d c : Dict} (h : c ∈ childDicts d) :
    Val.weightDict c < Val.weightDict d := by
  rcases childDicts_mem h with ⟨k, hk⟩
  have h2 := weight_lt_of_mem hk
  simp only [Val.weight] at h2
  omega

theorem hasDictValue_false_childDicts {c : Dict} (h : hasDictValue c = false) :
    childDicts c = [] := by
  induction c with
  | nil => rfl
  | cons kv rest ih =>
    obtain ⟨k, v⟩ := kv
    simp only [hasDictValue, List.any_cons, Bool.or_eq_false_iff] at h
    have ih2 : childDicts rest = [] := ih (by simpa [hasDictValue] using h.2)
    cases v with
    | dict d2 => simp [isDictV] at h
    | int n => simpa [childDicts, List.filterMap_cons] using ih2
    | str a => simpa [childDicts, List.filterMap_cons] using ih2
    | vnone => simpa [childDicts, List.filterMap_cons] using ih2
    | list l => simpa [childDicts, List.filterMap_cons] using ih2

theorem not_hasParallel_nil : ¬ HasParallel [] := by
  intro h
  cases h with
  | here h1 h2 => simp [childDicts] at h1
  | there hc hp => simp [childDicts] at hc

theorem not_hasParallel_of_no_dict {c : Dict} (h : hasDictValue c = false) :
    ¬ HasParallel c := by
  intro hp
  cases hp with
  | here h1 h2 => rw [hasDictValue_false_childDicts h] at h1; simp at h1
  | there hc hp2 => rw [hasDictValue_false_childDicts h] at hc; simp at hc

theorem checkLoopF_parallel : ∀ (fuel : Nat) (d : Dict), HasParallel d →
    Val.weightDict d ≤ fuel → checkLoopF fuel d = .error .parallelLoops := by
  intro fuel
  induction fuel with
  | zero =>
    intro d hp hw
    have := weightDict_pos d
    omega
  | succ f ih =>
    intro d hp hw
    simp only [checkLoopF]
    split
    next hcd =>
      exfalso
      cases hp with
      | here h1 _ => rw [hcd] at h1; simp at h1
      | there hc _ => rw [hcd] at hc; simp at hc
    next d0 rest hcd =>
      split
      next hA =>
        split
        next hB => rfl
        next hB =>
          have hp0 : HasParallel d0 := by
            cases hp with
            | here h1 h2 =>
              rw [hcd] at h1 h2
              exact absurd ⟨h1, h2⟩ hB
            | there hc hpc =>
              rename_i c
              rw [hcd] at hc
              rcases List.mem_cons.1 hc with hc2 | hc2
              · exact hc2 ▸ hpc
              · exfalso
                have hlen : 1 < (d0 :: rest).length := by
                  have hpos : 0 < rest.length := List.length_pos.2 (by
                    intro hnil; rw [hnil] at hc2; simp at hc2)
                  simp only [List.length_cons]; omega
                have hnd : ¬ (d0 :: rest).any hasDictValue = true :=
                  fun hh => hB ⟨hlen, hh⟩
                have hcf : hasDictValue c = false := by
                  by_contra hcv
                  exact hnd (List.any_eq_true.2 ⟨c, List.mem_cons_of_mem _ hc2,
                    by simpa using hcv⟩)
                exact not_hasParallel_of_no_dict hcf hpc
          have hw0 : Val.weightDict d0 ≤ f := by
            have h1 := weightDict_child_lt (show d0 ∈ childDicts d by
              rw [hcd]; exact List.mem_cons_self _ _)
            omega
          exact ih d0 hp0 hw0
      next hA =>
        exfalso
        have hemp : ∀ c2 ∈ d0 :: rest, c2 = [] := by
          intro c2 hc2
          by_contra hne
          apply hA
          exact List.any_eq_true.2 ⟨c2, hc2, by simpa [List.isEmpty_iff] using hne⟩
        cases hp with
        | here h1 h2 =>
          rw [hcd] at h2
          rcases List.any_eq_true.1 h2 with ⟨c2, hc2, hcv⟩
          rw [hemp c2 hc2] at hcv
          simp [hasDictValue] at hcv
        | there hc hpc =>
          rw [hcd] at hc
          rw [hemp _ hc] at hpc
          exact not_hasParallel_nil hpc

/-- C9: for every specification whose entry point contains, at some level
of the nested-loop tree, more than one child mapping of which at least one
itself contains a nested mapping, `get_combinations` fails with the
parallel-outer-loops structural error.  The failure comes from
`check_validity`, which runs before the skeleton extraction and the
sequence generator, so no output element (and no mutated state) is
produced: the whole call evaluates to the bare error. -/
theorem C9_parallel_outer_loops (p : Dict) (m : Dict)
    (hmain : dget p "main" = some (.dict m))
    (hpar : HasParallel m) :
    get_combinations p = .error .parallelLoops ∧
    get_combinations_state p = .error .parallelLoops := by
  have hcv : check_validity p = .error .parallelLoops := by
    simp only [check_validity, hmain]
    exact checkLoopF_parallel (Val.weightDict m + 1) m hpar (by omega)
  have hstate : get_combinations_state p = .error .parallelLoops := by
    simp only [get_combinations_state, hcv]
  exact ⟨by simp only [get_combinations, hstate, Except.map], hstate⟩

/-- C9 witness: the parallel-loops theorem instantiated at a concrete
specification with two sibling non-leaf mappings. -/
theorem C9_parallel_outer_loops_witness :
    get_combinations parallelSpec = Except.error Err.parallelLoops :=
  (C9_parallel_outer_loops parallelSpec
    [("outer", .dict [
      ("inner", .dict [("param_1", .list [.int 1, .int 2])]),
      ("inner2", .dict [("param_2", .dict [("deep", .int 1)])])])]
    (by decide)
    (@HasParallel.there
      [("outer", .dict [
        ("inner", .dict [("param_1", .list [.int 1, .int 2])]),
        ("inner2", .dict [("param_2", .dict [("deep", .int 1)])])])]
      [("inner", .dict [("param_1", .list [.int 1, .int 2])]),
       ("inner2", .dict [("param_2", .dict [("deep", .int 1)])])]
      (by decide)
      (HasParallel.here (by decide) (by decide)))).1


/-! ### C4: the call mutates the caller's mapping, but only beneath the
top-level keys -/

theorem keys_fillEntries (l : List Val) : ∀ (root : Dict) (vs : List Val) (root2 : Dict),
    fillEntries root l = .ok (vs, root2) → root2.map Prod.fst = root.map Prod.fst := by
  induction l with
  | nil =>
    intro root vs root2 h
    simp only [fillEntries] at h
    cases h; rfl
  | cons v rest ih =>
    intro root vs root2 h
    cases v with
    | str sname =>
      simp only [fillEntries] at h
      split at h
      · cases h
      next p hp =>
        split at h
        · cases h
        next combos hc =>
          rcases exceptMap_ok _ _ _ h with ⟨⟨vs2, r2⟩, hrec, hpair⟩
          have h2 : r2 = root2 := congrArg Prod.snd hpair
          subst h2
          rw [ih _ _ _ hrec]
          exact keys_dinsert_of_dhasKey _ (by simp [dhasKey, hp])
      · cases h
      · cases h
    | vnone =>
      simp only [fillEntries] at h
      rcases exceptMap_ok _ _ _ h with ⟨⟨vs2, r2⟩, hrec, hpair⟩
      have h2 : r2 = root2 := congrArg Prod.snd hpair
      subst h2
      exact ih _ _ _ hrec
    | dict d2 =>
      simp only [fillEntries] at h
      rcases exceptMap_ok _ _ _ h with ⟨⟨vs2, r2⟩, hrec, hpair⟩
      have h2 : r2 = root2 := congrArg Prod.snd hpair
      subst h2
      exact ih _ _ _ hrec
    | int n => simp only [fillEntries] at h; cases h
    | list l2 => simp only [fillEntries] at h; cases h

theorem keys_fill_template (root : Dict) (v : Val) (vs : List Val) (root2 : Dict)
    (h : fill_template root v = .ok (vs, root2)) :
    root2.map Prod.fst = root.map Prod.fst := by
  cases v with
  | vnone => simp only [fill_template] at h; cases h; rfl
  | list l =>
    simp only [fill_template] at h
    split at h
    · cases h
    next flat hf => exact keys_fillEntries flat root vs root2 h
  | int n => simp only [fill_template] at h; cases h
  | str a =>
    simp only [fill_template] at h
    exact keys_fillEntries _ root vs root2 h
  | dict d2 =>
    simp only [fill_template] at h
    exact keys_fillEntries _ root vs root2 h

theorem keys_fillTests (k : String) (ks : List String) (l : List (String × Dict)) :
    ∀ (root : Dict) (ts : List Dict) (root2 : Dict),
      fillTests (k :: ks) root l = .ok (ts, root2) →
      root2.map Prod.fst = root.map Prod.fst := by
  induction l with
  | nil =>
    intro root ts root2 h
    simp only [fillTests] at h
    cases h; rfl
  | cons kc rest ih =>
    intro root ts root2 h
    obtain ⟨kt, c⟩ := kc
    simp only [fillTests] at h
    split at h
    · cases h
    next sF root1 hs =>
      split at h
      · cases h
      next tF root3 ht =>
        split at h
        · cases h
        next ts2 root5 hrec =>
          cases h
          rw [ih _ _ _ hrec]
          rw [keys_modifyAt _ k ks _]
          rw [keys_fill_template _ _ _ _ ht]
          rw [keys_modifyAt _ k ks _]
          exact keys_fill_template _ _ _ _ hs

theorem keys_extractLoopF : ∀ (fuel : Nat) (root : Dict) (k : String) (ks : List String)
    (level : Dict) (iLevel : Nat) (setups teardowns : List Val) (yv : Val)
    (outer : List (List Dict)) (s2 t2 : List Val) (yv2 : Val) (tests : List Dict)
    (outer2 : List (List Dict)) (root2 : Dict),
    extractLoopF fuel root (k :: ks) level iLevel setups teardowns yv outer
      = .ok (s2, t2, yv2, tests, outer2, root2) →
    root2.map Prod.fst = root.map Prod.fst := by
  intro fuel
  induction fuel with
  | zero => intro root k ks level iLevel setups teardowns yv outer s2 t2 yv2 tests outer2 root2 h; cases h
  | succ f ih =>
    intro root k ks level iLevel setups teardowns yv outer s2 t2 yv2 tests outer2 root2 h
    simp only [extractLoopF] at h
    split at h
    · cases h
    next combos hc =>
      split at h
      · cases h
      next k0 d0 rest2 hch =>
        split at h
        · rw [ih _ _ _ _ _ _ _ _ _ _ _ _ _ _ _ h]
          exact keys_modifyAt _ k ks _
        · split at h
          · cases h
          next tests2 root3 hft =>
            cases h
            rw [keys_fillTests _ _ _ _ _ _ hft]
            exact keys_modifyAt _ k ks _

theorem keys_extract_skeleton (p : Dict) (sk : LoopSkeleton) (root2 : Dict)
    (h : _extract_skeleton p = .ok (sk, root2)) :
    root2.map Prod.fst = p.map Prod.fst := by
  simp only [_extract_skeleton] at h
  split at h
  next m hm =>
    split at h
    · cases h
    next setups teardowns yv tests outer root3 hex =>
      split at h
      · cases h
      next newS root4 hf1 =>
        split at h
        · cases h
        next newT root5 hf2 =>
          cases h
          rw [keys_fill_template _ _ _ _ hf2]
          rw [keys_fill_template _ _ _ _ hf1]
          exact keys_extractLoopF _ _ _ _ _ _ _ _ _ _ _ _ _ _ _ _ hex
  · cases h

/-- C4 (amended): `get_combinations` is not pure in its argument — it
removes the resolved `setup`/`teardown`/`yield_values` keys from the
nested level mappings, pops `setup`/`teardown` from referenced top-level
templates, and writes resolved `setup`/`teardown` entries into the leaf
tests (see the counterexample).  What does hold is that the set and order
of TOP-LEVEL keys of the supplied mapping are never changed: every
mutation happens beneath an existing top-level key. -/
theorem C4_top_level_keys_preserved (p : Dict) (out : List Dict) (p2 : Dict)
    (h : get_combinations_state p = .ok (out, p2)) :
    p2.map Prod.fst = p.map Prod.fst := by
  simp only [get_combinations_state] at h
  split at h
  · cases h
  · split at h
    · cases h
    next sk root2 hex =>
      split at h
      · cases h
      next blocks hb =>
        rw [Except.ok.injEq, Prod.mk.injEq] at h
        obtain ⟨_, h2⟩ := h
        rw [← h2]
        exact keys_extract_skeleton p sk root2 hex

def c4outList : List Dict :=
  (((get_combinations_state c4spec).toOption).getD ([], [])).1

/-- C4 witness: top-level keys survive the call on the concrete
specification. -/
theorem C4_top_level_keys_preserved_witness :
    c4finalState.map Prod.fst = c4spec.map Prod.fst :=
  C4_top_level_keys_preserved c4spec c4outList c4finalState rfl

/-- C4 counterexample: the call does NOT leave the caller's mapping
unchanged.  After a successful call on `c4spec` the caller's dictionary
holds a different value: `main` has lost its `setup` key and the leaf
test `x` has gained `setup` and `teardown` keys. -/
theorem C4_counterexample :
    (get_combinations_state c4spec).toOption.map Prod.snd = some c4finalState ∧
    c4finalState ≠ c4spec ∧
    c4finalState = [("main", .dict [("x", .dict [
      ("p", .list [.int 1, .int 2]),
      ("setup", .list []),
      ("teardown", .list [])])])] := by
  refine ⟨rfl, by decide, by decide⟩


/-! ### C7: template resolution failures -/

/-- C7 (amended): a setup/teardown entry that is a string fails template
resolution with the "Template not found" reference error when it matches
no top-level key, and also when it matches a top-level LIST (whose
`pop('setup', None)` raises `TypeError`, caught and re-raised).  A string
matching a top-level SCALAR, however, raises `AttributeError` from
`.pop`, which the `except (TypeError, KeyError)` clause does not catch —
the call fails, but not with the reference error the claim names.
Entries that are `None` or literal mappings pass through unchanged. -/
theorem C7_template_not_found (root : Dict) (s : String) (d2 : Dict)
    (l : List Val) (n : Int) :
    (dget root s = none →
      fill_template root (.list [.str s]) = .error .templateNotFound) ∧
    (dget root s = some (.list l) →
      fill_template root (.list [.str s]) = .error .templateNotFound) ∧
    (dget root s = some (.int n) →
      fill_template root (.list [.str s]) = .error .attributeError) ∧
    fill_template root (.list [.vnone]) = .ok ([.vnone], root) ∧
    fill_template root (.list [.dict d2]) = .ok ([.dict d2], root) := by
  refine ⟨?_, ?_, ?_, ?_, ?_⟩
  · intro h
    show fillEntries root [.str s] = _
    simp only [fillEntries, h]
  · intro h
    show fillEntries root [.str s] = _
    simp only [fillEntries, h]
  · intro h
    show fillEntries root [.str s] = _
    simp only [fillEntries, h]
  · show fillEntries root [.vnone] = _
    simp [fillEntries, Except.map]
  · show fillEntries root [.dict d2] = _
    simp [fillEntries, Except.map]

/-- C7 witness: the three failure branches and the two pass-through
branches at concrete inputs. -/
theorem C7_template_not_found_witness :
    fill_template [("k", Val.int 7)] (.list [.str "nokey"])
      = .error .templateNotFound ∧
    fill_template [("k", Val.list [Val.int 7])] (.list [.str "k"])
      = .error .templateNotFound ∧
    fill_template [("k", Val.int 7)] (.list [.str "k"])
      = .error .attributeError ∧
    fill_template [("k", Val.int 7)] (.list [.vnone])
      = .ok ([.vnone], [("k", Val.int 7)]) ∧
    fill_template [("k", Val.int 7)] (.list [.dict [("a", Val.int 1)]])
      = .ok ([.dict [("a", Val.int 1)]], [("k", Val.int 7)]) :=
  ⟨(C7_template_not_found [("k", Val.int 7)] "nokey" [] [] 7).1 (by decide),
   (C7_template_not_found [("k", Val.list [Val.int 7])] "k" [] [Val.int 7] 7).2.1 (by decide),
   (C7_template_not_found [("k", Val.int 7)] "k" [] [] 7).2.2.1 (by decide),
   (C7_template_not_found [("k", Val.int 7)] "k" [] [] 7).2.2.2.1,
   (C7_template_not_found [("k", Val.int 7)] "k" [("a", Val.int 1)] [] 7).2.2.2.2⟩

/-- C7 counterexample: a string entry matching a top-level SCALAR does
not produce the "Template not found" reference error — the call fails
with the distinct uncaught-`AttributeError` failure, end to end through
`get_combinations` as well. -/
theorem C7_counterexample :
    fill_template [("x", Val.int 5)] (.list [.str "x"]) = .error .attributeError ∧
    Err.attributeError ≠ Err.templateNotFound ∧
    get_combinations [
      ("main", .dict [("t", .dict [("setup", .list [.str "x"]),
        ("p", .list [.int 1, .int 2])])]),
      ("x", .int 5)] = .error .attributeError := by
  refine ⟨by decide, by decide, by decide⟩

/-! ### C8: mismatched zip-group lengths -/

/-- C8: whenever a flat parameter mapping contains two members of the same
(non-empty) zip group whose normalised value lists are both swept
(length > 1) but of different lengths, computing its combinations fails
with the zip-length shape error; and `get_combinations` on the
repository's own mismatched-zip specification aborts with that error and
returns no output. -/
theorem C8_zip_length_mismatch (p : Dict) (n1 n2 : String) (v1 v2 : Val) (g : String)
    (h1 : (n1, v1) ∈ p) (h2 : (n2, v2) ∈ p)
    (hg1 : get_zip_group n1 = some g) (hg2 : get_zip_group n2 = some g)
    (hgne : g ≠ "")
    (hl1 : 1 < (normalizeVal v1).length) (hl2 : 1 < (normalizeVal v2).length)
    (hne : (normalizeVal v1).length ≠ (normalizeVal v2).length) :
    (ParameterCombination.ofDict p).combinations = .error .zipMismatch ∧
    get_combinations zipMismatchSpec = .error .zipMismatch := by
  constructor
  · have hzip : (ParameterCombination.ofDict p).names.zip
        (ParameterCombination.ofDict p).values
        = p.map (fun kv => (kv.1, normalizeVal kv.2)) := by
      simp only [ParameterCombination.ofDict]
      exact List.zip_map' _ _ _
    have hmem1 : (some g, (normalizeVal v1).length)
        ∈ (ParameterCombination.ofDict p).sweptGroups := by
      apply List.mem_filterMap.2
      refine ⟨(n1, normalizeVal v1), ?_, ?_⟩
      · rw [hzip]
        exact List.mem_map.2 ⟨(n1, v1), h1, rfl⟩
      · simp only [if_pos hl1, hg1]
    have hmem2 : (some g, (normalizeVal v2).length)
        ∈ (ParameterCombination.ofDict p).sweptGroups := by
      apply List.mem_filterMap.2
      refine ⟨(n2, normalizeVal v2), ?_, ?_⟩
      · rw [hzip]
        exact List.mem_map.2 ⟨(n2, v2), h2, rfl⟩
      · simp only [if_pos hl2, hg2]
    have hmz : (ParameterCombination.ofDict p).hasZipMismatch = true := by
      apply List.any_eq_true.2
      refine ⟨(some g, (normalizeVal v1).length), hmem1, ?_⟩
      simp only [decide_eq_true_eq, Bool.and_eq_true, decide_eq_true_eq]
      refine ⟨by simpa using hgne, ?_⟩
      apply List.any_eq_true.2
      exact ⟨(some g, (normalizeVal v2).length), hmem2, by simp [hne.symm]⟩
    simp only [ParameterCombination.combinations, if_pos hmz]
  · decide

/-- C8 witness: the mismatch theorem instantiated at a concrete mapping
with group members of lengths 2 and 3. -/
theorem C8_zip_length_mismatch_witness :
    (ParameterCombination.ofDict [("a#zip_g", Val.list [Val.int 1, Val.int 2]),
      ("b#zip_g", Val.list [Val.int 1, Val.int 2, Val.int 3])]).combinations
      = .error .zipMismatch ∧
    get_combinations zipMismatchSpec = .error .zipMismatch :=
  C8_zip_length_mismatch
    [("a#zip_g", Val.list [Val.int 1, Val.int 2]),
     ("b#zip_g", Val.list [Val.int 1, Val.int 2, Val.int 3])]
    "a#zip_g" "b#zip_g"
    (Val.list [Val.int 1, Val.int 2]) (Val.list [Val.int 1, Val.int 2, Val.int 3])
    "g" (by decide) (by decide) (by decide) (by decide) (by decide)
    (by decide) (by decide) (by decide)


/-! ### C2: ungrouped parameters combine as the full cartesian product -/

theorem flatMap_map_length {α β : Type} (l : List α) (P : List (List β)) (g : α → β) :
    (l.flatMap (fun x => P.map (fun t => g x :: t))).length = l.length * P.length := by
  induction l with
  | nil => simp
  | cons x l ih =>
    simp only [List.flatMap_cons, List.length_append, List.length_map, ih,
      List.length_cons]
    ring

theorem prodLists_length {α : Type} (ls : List (List α)) :
    (prodLists ls).length = (ls.map List.length).prod := by
  induction ls with
  | nil => simp [prodLists]
  | cons l ls ih =>
    simp only [prodLists, List.map_cons, List.prod_cons, ← ih]
    simpa using flatMap_map_length l (prodLists ls) id

theorem getD_range_map {α : Type} (l : List α) (d : α) :
    (List.range l.length).map (fun i => l.getD i d) = l := by
  induction l with
  | nil => simp
  | cons x l ih =>
    rw [List.length_cons, List.range_succ_eq_map]
    simp only [List.map_cons, List.getD_cons_zero, List.map_map]
    have hc : ((fun i => (x :: l).getD i d) ∘ Nat.succ) = (fun i => l.getD i d) := by
      funext i
      simp [List.getD_cons_succ]
    rw [hc, ih]

theorem flatMap_congr_fun {α β : Type} (l : List α) (f g : α → List β)
    (h : ∀ x ∈ l, f x = g x) : l.flatMap f = l.flatMap g := by
  induction l with
  | nil => simp
  | cons x l ih =>
    simp only [List.flatMap_cons]
    rw [h x (List.mem_cons_self _ _), ih (fun y hy => h y (List.mem_cons_of_mem _ hy))]

theorem range_flatMap_getD {α β : Type} (l : List α) (d : α) (F : α → List β) :
    (List.range l.length).flatMap (fun i => F (l.getD i d)) = l.flatMap F := by
  conv_rhs => rw [← getD_range_map l d]
  rw [List.flatMap_map]

theorem prodLists_select (ls : List (List Val)) :
    (prodLists (ls.map (fun l => List.range l.length))).map
      (fun idx => (ls.zip idx).map (fun vj => vj.1.getD vj.2 Val.vnone)) = prodLists ls := by
  induction ls with
  | nil => simp [prodLists]
  | cons l ls ih =>
    simp only [List.map_cons, prodLists, List.map_flatMap]
    have hinner : ∀ i : Nat,
        ((prodLists (ls.map (fun l2 => List.range l2.length))).map (fun t => i :: t)).map
          (fun idx => ((l :: ls).zip idx).map (fun vj => vj.1.getD vj.2 Val.vnone))
        = (prodLists ls).map (fun t => l.getD i Val.vnone :: t) := by
      intro i
      rw [List.map_map]
      have hcomp : ((fun idx => ((l :: ls).zip idx).map (fun vj => vj.1.getD vj.2 Val.vnone))
          ∘ (fun t => i :: t))
          = (fun t => l.getD i Val.vnone :: t)
            ∘ (fun idx => (ls.zip idx).map (fun vj => vj.1.getD vj.2 Val.vnone)) := by
        funext t
        simp [List.zip_cons_cons]
      rw [hcomp, ← List.map_map, ih]
    rw [flatMap_congr_fun _ _ _ (fun i _ => hinner i)]
    exact range_flatMap_getD l Val.vnone (fun x => (prodLists ls).map (fun t => x :: t))


theorem mem_namesValues {p : Dict} {nv : String × List Val}
    (h : nv ∈ (ParameterCombination.ofDict p).names.zip
      (ParameterCombination.ofDict p).values) :
    ∃ kv ∈ p, nv = (kv.1, normalizeVal kv.2) := by
  have hzip : (ParameterCombination.ofDict p).names.zip
      (ParameterCombination.ofDict p).values
      = p.map (fun kv => (kv.1, normalizeVal kv.2)) := by
    simp only [ParameterCombination.ofDict]
    exact List.zip_map' _ _ _
  rw [hzip] at h
  rcases List.mem_map.1 h with ⟨kv, hkv, heq⟩
  exact ⟨kv, hkv, heq.symm⟩

theorem sweptGroups_none (p : Dict)
    (H : ∀ kv ∈ p, 1 < (normalizeVal kv.2).length → get_zip_group kv.1 = none) :
    ∀ a ∈ (ParameterCombination.ofDict p).sweptGroups, a.1 = none := by
  intro a ha
  rcases List.mem_filterMap.1 ha with ⟨nv, hmem, heq⟩
  rcases mem_namesValues hmem with ⟨kv, hkv, hnv⟩
  split at heq
  next hlen =>
    rw [Option.some.injEq] at heq
    rw [← heq]
    subst hnv
    exact H kv hkv hlen
  · cases heq

theorem sweptIdx_none (p : Dict) (idx : List Nat)
    (H : ∀ kv ∈ p, 1 < (normalizeVal kv.2).length → get_zip_group kv.1 = none) :
    ∀ a ∈ (ParameterCombination.ofDict p).sweptIdx idx, a.1 = none := by
  intro a ha
  rcases List.mem_filterMap.1 ha with ⟨⟨nv, j⟩, hmem, heq⟩
  have hnv : nv ∈ (ParameterCombination.ofDict p).names.zip
      (ParameterCombination.ofDict p).values := (List.of_mem_zip hmem).1
  rcases mem_namesValues hnv with ⟨kv, hkv, hnveq⟩
  split at heq
  next hlen =>
    rw [Option.some.injEq] at heq
    rw [← heq]
    subst hnveq
    exact H kv hkv hlen
  · cases heq

theorem validIdx_of_none (gi : List (Option String × Nat))
    (H : ∀ a ∈ gi, a.1 = none) : ParameterCombination.validIdx gi = true := by
  apply List.all_eq_true.2
  intro a ha
  have h2 := H a ha
  obtain ⟨g, m⟩ := a
  simp only at h2
  subst h2
  simp

theorem hasZipMismatch_false_of_none (p : Dict)
    (H : ∀ kv ∈ p, 1 < (normalizeVal kv.2).length → get_zip_group kv.1 = none) :
    (ParameterCombination.ofDict p).hasZipMismatch = false := by
  apply List.any_eq_false.2
  intro a ha
  have h2 := sweptGroups_none p H a ha
  obtain ⟨g, m⟩ := a
  simp only at h2
  subst h2
  simp

theorem filterMap_if_all_true {α β : Type} (f : α → β) (P : α → Bool) (l : List α)
    (H : ∀ x ∈ l, P x = true) :
    (l.filterMap (fun x => if P x then some (f x) else none)) = l.map f := by
  induction l with
  | nil => rfl
  | cons x l ih =>
    rw [List.filterMap_cons, List.map_cons]
    rw [if_pos (H x (List.mem_cons_self _ _))]
    rw [ih (fun y hy => H y (List.mem_cons_of_mem _ hy))]

theorem prodLists_singletons {α : Type} (ls : List (List α)) (d : α)
    (H : ∀ l ∈ ls, l.length = 1) :
    prodLists ls = [ls.map (fun l => l.headD d)] := by
  induction ls with
  | nil => rfl
  | cons l ls ih =>
    rcases List.length_eq_one.1 (H l (List.mem_cons_self _ _)) with ⟨x, hx⟩
    subst hx
    rw [prodLists, ih (fun y hy => H y (List.mem_cons_of_mem _ hy))]
    simp

theorem values_not_empty (p : Dict)
    (Hpos : ∀ kv ∈ p, 0 < (normalizeVal kv.2).length) :
    ((ParameterCombination.ofDict p).values.any (fun v => v.length = 0)) = false := by
  apply List.any_eq_false.2
  intro v hv
  simp only [ParameterCombination.ofDict] at hv
  rcases List.mem_map.1 hv with ⟨kv, hkv, heq⟩
  subst heq
  have := Hpos kv hkv
  simp only [decide_eq_true_eq]
  omega

/-- C2: for a flat mapping with no empty value list (an empty list makes
the source raise an uncaught `IndexError`) whose swept (length > 1)
parameters carry no zip-group tag, the combinations are exactly the full
cartesian product of the normalised value lists, in standard nested order
with the first-declared parameter varying slowest, with `∏ Li` members;
an all-singleton mapping yields exactly one combination holding every
fixed value. -/
theorem C2_cartesian_product (p : Dict)
    (Hpos : ∀ kv ∈ p, 0 < (normalizeVal kv.2).length)
    (H : ∀ kv ∈ p, 1 < (normalizeVal kv.2).length → get_zip_group kv.1 = none) :
    (ParameterCombination.ofDict p).combinations = .ok (cartesianCombos p) ∧
    (cartesianCombos p).length
      = (p.map (fun kv => (normalizeVal kv.2).length)).prod ∧
    ((∀ kv ∈ p, (normalizeVal kv.2).length = 1) →
      (ParameterCombination.ofDict p).combinations =
        .ok [ParameterCombination.buildDict (p.map Prod.fst)
          (p.map (fun kv => (normalizeVal kv.2).headD Val.vnone))]) := by
  have hcart : (ParameterCombination.ofDict p).combinations
      = .ok (cartesianCombos p) := by
    rw [ParameterCombination.combinations, if_neg (by
      rw [hasZipMismatch_false_of_none p H]; simp)]
    rw [if_neg (by rw [values_not_empty p Hpos]; simp)]
    congr 1
    rw [ParameterCombination.combosRaw]
    rw [filterMap_if_all_true _ _ _ (fun idx _ =>
      validIdx_of_none _ (sweptIdx_none p idx H))]
    show (ParameterCombination.ofDict p).indexTuples.map
      ((ParameterCombination.ofDict p).comboOfIdx) = _
    have hsel : (ParameterCombination.ofDict p).indexTuples.map
        ((ParameterCombination.ofDict p).comboOfIdx)
        = ((ParameterCombination.ofDict p).indexTuples.map
            (fun idx => ((ParameterCombination.ofDict p).values.zip idx).map
              (fun vj => vj.1.getD vj.2 Val.vnone))).map
          (ParameterCombination.buildDict (ParameterCombination.ofDict p).names) := by
      rw [List.map_map]
      rfl
    rw [hsel, ParameterCombination.indexTuples, prodLists_select]
    rfl
  refine ⟨hcart, ?_, ?_⟩
  · rw [cartesianCombos, List.length_map, prodLists_length, List.map_map]
    rfl
  · intro hsingle
    rw [hcart]
    congr 1
    rw [cartesianCombos, prodLists_singletons _ Val.vnone (by
      intro l hl
      rcases List.mem_map.1 hl with ⟨kv, hkv, heq⟩
      rw [← heq]
      exact hsingle kv hkv)]
    simp [List.map_map]
    rfl

/-- C2 witness: a two-parameter mapping (one swept, one fixed) produces
the cartesian product with 3 = 3 · 1 combinations. -/
theorem C2_cartesian_product_witness :
    (ParameterCombination.ofDict [("temperature", Val.list [Val.int 25, Val.int 26, Val.int 27]),
      ("fixed", Val.int 5)]).combinations
      = .ok (cartesianCombos [("temperature", Val.list [Val.int 25, Val.int 26, Val.int 27]),
        ("fixed", Val.int 5)]) ∧
    (cartesianCombos [("temperature", Val.list [Val.int 25, Val.int 26, Val.int 27]),
      ("fixed", Val.int 5)]).length = 3 :=
  ⟨(C2_cartesian_product _ (by decide) (by decide)).1,
   ((C2_cartesian_product [("temperature", Val.list [Val.int 25, Val.int 26, Val.int 27]),
      ("fixed", Val.int 5)] (by decide) (by decide)).2.1).trans (by decide)⟩


/-! ### C3: zip groups restrict their members to the shared diagonal -/

theorem allEqMarked_some_iff (dims : List (Bool × Nat)) :
    ∀ (idx : List Nat) (t : Nat),
      allEqMarked dims (some t) idx = true ↔ ∀ x ∈ markedVals dims idx, x = t := by
  induction dims with
  | nil => intro idx t; simp [allEqMarked, markedVals]
  | cons d dims ih =>
    intro idx t
    cases idx with
    | nil => simp [allEqMarked, markedVals]
    | cons j idx =>
      by_cases hm : d.1
      · simp only [allEqMarked, markedVals, if_pos hm]
        rw [List.forall_mem_cons]
        constructor
        · intro h
          have h2 : j = t ∧ allEqMarked dims (some t) idx = true := by
            simpa using h
          exact ⟨h2.1, (ih idx t).1 h2.2⟩
        · intro ⟨h1, h2⟩
          simpa using ⟨h1, (ih idx t).2 h2⟩
      · simp only [allEqMarked, markedVals, if_neg hm]
        exact ih idx t

theorem allEqMarked_none_iff (dims : List (Bool × Nat)) :
    ∀ (idx : List Nat),
      allEqMarked dims none idx = true ↔
        ∀ x ∈ markedVals dims idx, ∀ y ∈ markedVals dims idx, x = y := by
  induction dims with
  | nil => intro idx; simp [allEqMarked, markedVals]
  | cons d dims ih =>
    intro idx
    cases idx with
    | nil => simp [allEqMarked, markedVals]
    | cons j idx =>
      by_cases hm : d.1
      · simp only [allEqMarked, markedVals, if_pos hm]
        rw [allEqMarked_some_iff]
        constructor
        · intro h x hx y hy
          rcases List.mem_cons.1 hx with hx | hx
          · rcases List.mem_cons.1 hy with hy | hy
            · rw [hx, hy]
            · rw [hx, h y hy]
          · rcases List.mem_cons.1 hy with hy | hy
            · rw [hy, h x hx]
            · rw [h x hx, h y hy]
        · intro h x hx
          exact h x (List.mem_cons_of_mem _ hx) j (List.mem_cons_self _ _)
      · simp only [allEqMarked, markedVals, if_neg hm]
        exact ih idx

theorem sweptIdx_proj_markedVals (g : String) :
    ∀ (p : Dict) (idx : List Nat),
      ((ParameterCombination.ofDict p).sweptIdx idx).filterMap
        (fun a => if a.1 = some g then some a.2 else none)
      = markedVals (dimsOf p g) idx := by
  intro p
  induction p with
  | nil => intro idx; simp [ParameterCombination.sweptIdx, ParameterCombination.ofDict,
      dimsOf, markedVals]
  | cons kv p ih =>
    intro idx
    cases idx with
    | nil =>
      simp [ParameterCombination.sweptIdx, ParameterCombination.ofDict, dimsOf, markedVals]
    | cons j idx =>
      have hstep : (ParameterCombination.ofDict (kv :: p)).sweptIdx (j :: idx)
          = (if 1 < (normalizeVal kv.2).length
              then [(get_zip_group kv.1, j)] else [])
            ++ (ParameterCombination.ofDict p).sweptIdx idx := by
        simp only [ParameterCombination.sweptIdx, ParameterCombination.ofDict,
          List.map_cons, List.zip_cons_cons, List.filterMap_cons]
        by_cases hl : 1 < (normalizeVal kv.2).length
        · rw [if_pos hl, if_pos hl]
          rfl
        · rw [if_neg hl, if_neg hl]
          rfl
      rw [hstep]
      rw [List.filterMap_append]
      by_cases hl : 1 < (normalizeVal kv.2).length
      · rw [if_pos hl]
        by_cases hg : get_zip_group kv.1 = some g
        · have hdim : (dimsOf (kv :: p) g) = (true, (normalizeVal kv.2).length)
              :: dimsOf p g := by
            simp [dimsOf, hl, hg]
          rw [hdim]
          simp only [markedVals, if_pos rfl]
          rw [← ih idx]
          simp [List.filterMap_cons, hg]
        · have hdim : (dimsOf (kv :: p) g) = (false, (normalizeVal kv.2).length)
              :: dimsOf p g := by
            simp [dimsOf, hl, hg]
          rw [hdim]
          simp only [markedVals]
          rw [← ih idx]
          simp [List.filterMap_cons, hg]
      · rw [if_neg hl]
        have hdim : (dimsOf (kv :: p) g) = (false, (normalizeVal kv.2).length)
            :: dimsOf p g := by
          simp [dimsOf, hl]
        rw [hdim]
        simp only [markedVals]
        rw [← ih idx]
        simp


theorem sweptIdx_g_or_none (p : Dict) (g : String) (idx : List Nat)
    (H1 : ∀ kv ∈ p, 1 < (normalizeVal kv.2).length →
      get_zip_group kv.1 = some g ∨ get_zip_group kv.1 = none) :
    ∀ a ∈ (ParameterCombination.ofDict p).sweptIdx idx,
      a.1 = some g ∨ a.1 = none := by
  intro a ha
  rcases List.mem_filterMap.1 ha with ⟨⟨nv, j⟩, hmem, heq⟩
  have hnv : nv ∈ (ParameterCombination.ofDict p).names.zip
      (ParameterCombination.ofDict p).values := (List.of_mem_zip hmem).1
  rcases mem_namesValues hnv with ⟨kv, hkv, hnveq⟩
  split at heq
  next hlen =>
    rw [Option.some.injEq] at heq
    rw [← heq]
    subst hnveq
    exact H1 kv hkv hlen
  · cases heq

theorem validIdx_iff_pairwise (gi : List (Option String × Nat)) :
    ParameterCombination.validIdx gi = true ↔
      ∀ a ∈ gi, ∀ g0 : String, a.1 = some g0 → g0 ≠ "" →
        ∀ b ∈ gi, b.1 = some g0 → b.2 = a.2 := by
  unfold ParameterCombination.validIdx
  rw [List.all_eq_true]
  constructor
  · intro h a ha g0 hg0 hne b hb hbg
    have h2 := h a ha
    obtain ⟨ga, ma⟩ := a
    simp only at hg0
    subst hg0
    simp only [decide_eq_true_eq] at h2
    rcases h2 with h2 | h2
    · exact absurd h2 hne
    · have h3 := List.all_eq_true.1 h2 b hb
      simp only [decide_eq_true_eq] at h3
      rcases h3 with h3 | h3
      · exact absurd hbg h3
      · exact h3
  · intro h a ha
    obtain ⟨ga, ma⟩ := a
    cases ga with
    | none => simp
    | some g0 =>
      simp only [decide_eq_true_eq]
      by_cases hge : g0 = ""
      · exact Or.inl hge
      · refine Or.inr (List.all_eq_true.2 ?_)
        intro b hb
        simp only [decide_eq_true_eq]
        by_cases hbg : b.1 = some g0
        · exact Or.inr (h (some g0, ma) ha g0 rfl hge b hb hbg)
        · exact Or.inl hbg

theorem validIdx_eq_allEqMarked (p : Dict) (g : String) (idx : List Nat)
    (hg : g ≠ "")
    (H1 : ∀ kv ∈ p, 1 < (normalizeVal kv.2).length →
      get_zip_group kv.1 = some g ∨ get_zip_group kv.1 = none) :
    ParameterCombination.validIdx ((ParameterCombination.ofDict p).sweptIdx idx)
      = allEqMarked (dimsOf p g) none idx := by
  rw [Bool.eq_iff_iff]
  rw [validIdx_iff_pairwise, allEqMarked_none_iff]
  rw [← sweptIdx_proj_markedVals g p idx]
  constructor
  · intro h x hx y hy
    rcases List.mem_filterMap.1 hx with ⟨a, ha, hax⟩
    rcases List.mem_filterMap.1 hy with ⟨b, hb, hby⟩
    split at hax
    next hag =>
      split at hby
      next hbg =>
        rw [Option.some.injEq] at hax hby
        rw [← hax, ← hby]
        exact (h a ha g hag hg b hb hbg).symm
      · cases hby
    · cases hax
  · intro h a ha g0 hg0 hne b hb hbg
    have hag : a.1 = some g := by
      rcases sweptIdx_g_or_none p g idx H1 a ha with h2 | h2
      · exact h2
      · rw [h2] at hg0; cases hg0
    have hg0g : g0 = g := by
      rw [hag] at hg0
      exact (Option.some.injEq _ _ ▸ hg0).symm
    rw [hg0g] at hbg
    have hxm : a.2 ∈ ((ParameterCombination.ofDict p).sweptIdx idx).filterMap
        (fun a => if a.1 = some g then some a.2 else none) :=
      List.mem_filterMap.2 ⟨a, ha, by rw [if_pos hag]⟩
    have hym : b.2 ∈ ((ParameterCombination.ofDict p).sweptIdx idx).filterMap
        (fun a => if a.1 = some g then some a.2 else none) :=
      List.mem_filterMap.2 ⟨b, hb, by rw [if_pos hbg]⟩
    exact h b.2 hym a.2 hxm


theorem filter_flatMap_swap {α β : Type} (l : List α) (f : α → List β) (P : β → Bool) :
    (l.flatMap f).filter P = l.flatMap (fun x => (f x).filter P) := by
  induction l with
  | nil => simp
  | cons x l ih => simp only [List.flatMap_cons, List.filter_append, ih]

theorem range_pick {β : Type} (n t : Nat) (F : Nat → List β) :
    (List.range n).flatMap (fun x => if x = t then F x else []) =
      if t < n then F t else [] := by
  induction n with
  | zero => simp
  | succ n ih =>
    rw [List.range_succ, List.flatMap_append, ih]
    simp only [List.flatMap_cons, List.flatMap_nil, List.append_nil]
    by_cases h1 : t < n
    · rw [if_pos h1, if_neg (show ¬ n = t by omega), if_pos (show t < n + 1 by omega)]
      simp
    · rw [if_neg h1]
      by_cases h2 : n = t
      · subst h2
        rw [if_pos rfl, if_pos (show n < n + 1 by omega)]
        simp
      · rw [if_neg h2, if_neg (show ¬ t < n + 1 by omega)]
        simp

theorem prodLists_filter_allEq (dims : List (Bool × Nat)) :
    ∀ st, (prodLists (dims.map (fun d => List.range d.2))).filter
        (fun idx => allEqMarked dims st idx) = diagProd dims st := by
  induction dims with
  | nil => intro st; simp [prodLists, diagProd, allEqMarked]
  | cons d dims ih =>
    intro st
    obtain ⟨m, n⟩ := d
    simp only [List.map_cons, prodLists]
    rw [filter_flatMap_swap]
    cases m with
    | false =>
      have hinner : ∀ x ∈ List.range n,
          ((prodLists (dims.map (fun d2 => List.range d2.2))).map (fun t => x :: t)).filter
            (fun idx => allEqMarked ((false, n) :: dims) st idx)
          = (diagProd dims st).map (fun t => x :: t) := by
        intro x _
        rw [List.filter_map]
        have hfun : ((fun idx => allEqMarked ((false, n) :: dims) st idx)
            ∘ (fun t => x :: t)) = (fun idx => allEqMarked dims st idx) := by
          funext idx
          simp [allEqMarked]
        rw [hfun, ih st]
      rw [flatMap_congr_fun _ _ _ hinner]
      simp [diagProd]
    | true =>
      cases st with
      | none =>
        have hinner : ∀ x ∈ List.range n,
            ((prodLists (dims.map (fun d2 => List.range d2.2))).map (fun t => x :: t)).filter
              (fun idx => allEqMarked ((true, n) :: dims) none idx)
            = (diagProd dims (some x)).map (fun t => x :: t) := by
          intro x _
          rw [List.filter_map]
          have hfun : ((fun idx => allEqMarked ((true, n) :: dims) none idx)
              ∘ (fun t => x :: t)) = (fun idx => allEqMarked dims (some x) idx) := by
            funext idx
            simp [allEqMarked]
          rw [hfun, ih (some x)]
        rw [flatMap_congr_fun _ _ _ hinner]
        simp [diagProd]
      | some t =>
        have hinner : ∀ x ∈ List.range n,
            ((prodLists (dims.map (fun d2 => List.range d2.2))).map (fun t2 => x :: t2)).filter
              (fun idx => allEqMarked ((true, n) :: dims) (some t) idx)
            = if x = t then (diagProd dims (some t)).map (fun t2 => x :: t2) else [] := by
          intro x _
          rw [List.filter_map]
          by_cases hxt : x = t
          · rw [if_pos hxt]
            have hfun : ((fun idx => allEqMarked ((true, n) :: dims) (some t) idx)
                ∘ (fun t2 => x :: t2)) = (fun idx => allEqMarked dims (some t) idx) := by
              funext idx
              simp [allEqMarked, hxt]
            rw [hfun, ih (some t)]
          · rw [if_neg hxt]
            have hnil : (prodLists (dims.map (fun d2 => List.range d2.2))).filter
                ((fun idx => allEqMarked ((true, n) :: dims) (some t) idx)
                  ∘ (fun t2 => x :: t2)) = [] := by
              rw [List.filter_eq_nil_iff]
              intro idx _
              simp [allEqMarked, hxt]
            rw [hnil]
            simp
        rw [flatMap_congr_fun _ _ _ hinner]
        rw [range_pick n t (fun x => (diagProd dims (some t)).map (fun t2 => x :: t2))]
        simp [diagProd]

theorem flatMap_const_length {α β : Type} (l : List α) (f : α → List β) (c : Nat)
    (h : ∀ x ∈ l, (f x).length = c) : (l.flatMap f).length = l.length * c := by
  induction l with
  | nil => simp
  | cons x l ih =>
    simp only [List.flatMap_cons, List.length_append, List.length_cons]
    rw [h x (List.mem_cons_self _ _), ih (fun y hy => h y (List.mem_cons_of_mem _ hy))]
    ring

theorem diagProd_cons_false {n : Nat} {dims : List (Bool × Nat)} {st : Option Nat} :
    diagProd ((false, n) :: dims) st
      = (List.range n).flatMap (fun x => (diagProd dims st).map (fun t => x :: t)) := by
  simp [diagProd]

theorem diagProd_cons_true_some {n t : Nat} {dims : List (Bool × Nat)} :
    diagProd ((true, n) :: dims) (some t)
      = if t < n then (diagProd dims (some t)).map (fun l => t :: l) else [] := by
  simp [diagProd]

theorem diagProd_cons_true_none {n : Nat} {dims : List (Bool × Nat)} :
    diagProd ((true, n) :: dims) none
      = (List.range n).flatMap (fun x => (diagProd dims (some x)).map (fun l => x :: l)) := by
  simp [diagProd]

theorem unmarked_cons_true {n : Nat} {dims : List (Bool × Nat)} :
    ((true, n) :: dims).filterMap (fun d => if d.1 then none else some d.2)
      = dims.filterMap (fun d => if d.1 then none else some d.2) := by
  simp

theorem unmarked_cons_false {n : Nat} {dims : List (Bool × Nat)} :
    ((false, n) :: dims).filterMap (fun d => if d.1 then none else some d.2)
      = n :: dims.filterMap (fun d => if d.1 then none else some d.2) := by
  simp

theorem diagProd_length_some (dims : List (Bool × Nat)) (L : Nat) :
    ∀ t, (∀ d ∈ dims, d.1 = true → d.2 = L) → t < L →
      (diagProd dims (some t)).length
        = (dims.filterMap (fun d => if d.1 then none else some d.2)).prod := by
  induction dims with
  | nil => intro t _ _; simp [diagProd]
  | cons d dims ih =>
    intro t hL ht
    obtain ⟨m, n⟩ := d
    cases m with
    | true =>
      have hn : n = L := hL (true, n) (List.mem_cons_self _ _) rfl
      rw [diagProd_cons_true_some, unmarked_cons_true]
      rw [if_pos (show t < n by omega)]
      rw [List.length_map]
      exact ih t (fun d2 hd2 => hL d2 (List.mem_cons_of_mem _ hd2)) ht
    | false =>
      rw [diagProd_cons_false, unmarked_cons_false]
      rw [flatMap_const_length _ _
        ((dims.filterMap (fun d => if d.1 then none else some d.2)).prod) (by
          intro x _
          rw [List.length_map]
          exact ih t (fun d2 hd2 => hL d2 (List.mem_cons_of_mem _ hd2)) ht)]
      simp [List.length_range, List.prod_cons]

theorem diagProd_length_none (dims : List (Bool × Nat)) (L : Nat) :
    (∀ d ∈ dims, d.1 = true → d.2 = L) → (∃ d ∈ dims, d.1 = true) →
      (diagProd dims none).length
        = L * (dims.filterMap (fun d => if d.1 then none else some d.2)).prod := by
  induction dims with
  | nil => intro _ hk; simp at hk
  | cons d dims ih =>
    intro hL hk
    obtain ⟨m, n⟩ := d
    cases m with
    | true =>
      have hn : n = L := hL (true, n) (List.mem_cons_self _ _) rfl
      rw [diagProd_cons_true_none, unmarked_cons_true]
      rw [flatMap_const_length _ _
        ((dims.filterMap (fun d => if d.1 then none else some d.2)).prod) (by
          intro x hx
          rw [List.length_map]
          exact diagProd_length_some dims L x
            (fun d2 hd2 => hL d2 (List.mem_cons_of_mem _ hd2))
            (by rw [← hn]; exact List.mem_range.1 hx))]
      rw [List.length_range, hn]
    | false =>
      have hk2 : ∃ d2 ∈ dims, d2.1 = true := by
        rcases hk with ⟨d2, hd2, hflag⟩
        rcases List.mem_cons.1 hd2 with hd2 | hd2
        · rw [hd2] at hflag; simp at hflag
        · exact ⟨d2, hd2, hflag⟩
      rw [diagProd_cons_false, unmarked_cons_false]
      rw [flatMap_const_length _ _
        (L * (dims.filterMap (fun d => if d.1 then none else some d.2)).prod) (by
          intro x _
          rw [List.length_map]
          exact ih (fun d2 hd2 => hL d2 (List.mem_cons_of_mem _ hd2)) hk2)]
      rw [List.length_range, List.prod_cons]
      ring

theorem filterMap_if_eq_filter_map {α β : Type} (f : α → β) (P : α → Bool)
    (l : List α) :
    (l.filterMap (fun x => if P x then some (f x) else none)) = (l.filter P).map f := by
  induction l with
  | nil => rfl
  | cons x l ih =>
    rw [List.filterMap_cons, List.filter_cons]
    by_cases h : P x = true
    · rw [if_pos h, if_pos h, List.map_cons, ih]
    · rw [if_neg h, if_neg h, ih]

theorem filter_congr_fun {α : Type} (l : List α) (P Q : α → Bool)
    (h : ∀ x ∈ l, P x = Q x) : l.filter P = l.filter Q := by
  induction l with
  | nil => rfl
  | cons x l ih =>
    rw [List.filter_cons, List.filter_cons]
    rw [h x (List.mem_cons_self _ _), ih (fun y hy => h y (List.mem_cons_of_mem _ hy))]

theorem sweptGroups_mem {p : Dict} {a : Option String × Nat}
    (h : a ∈ (ParameterCombination.ofDict p).sweptGroups) :
    ∃ kv ∈ p, 1 < (normalizeVal kv.2).length ∧
      a = (get_zip_group kv.1, (normalizeVal kv.2).length) := by
  rcases List.mem_filterMap.1 h with ⟨nv, hmem, heq⟩
  rcases mem_namesValues hmem with ⟨kv, hkv, hnv⟩
  split at heq
  next hlen =>
    rw [Option.some.injEq] at heq
    subst hnv
    exact ⟨kv, hkv, hlen, heq.symm⟩
  · cases heq

theorem sweptGroups_size_of_g {p : Dict} {g : String} {L : Nat}
    (H2 : ∀ kv ∈ p, 1 < (normalizeVal kv.2).length →
      get_zip_group kv.1 = some g → (normalizeVal kv.2).length = L) :
    ∀ a ∈ (ParameterCombination.ofDict p).sweptGroups, a.1 = some g → a.2 = L := by
  intro a ha hag
  rcases sweptGroups_mem ha with ⟨kv, hkv, hlen, haeq⟩
  rw [haeq] at hag ⊢
  exact H2 kv hkv hlen hag

theorem hasZipMismatch_false_of_uniform (p : Dict) (g : String) (L : Nat)
    (H1 : ∀ kv ∈ p, 1 < (normalizeVal kv.2).length →
      get_zip_group kv.1 = some g ∨ get_zip_group kv.1 = none)
    (H2 : ∀ kv ∈ p, 1 < (normalizeVal kv.2).length →
      get_zip_group kv.1 = some g → (normalizeVal kv.2).length = L) :
    (ParameterCombination.ofDict p).hasZipMismatch = false := by
  apply List.any_eq_false.2
  intro a ha
  rcases sweptGroups_mem ha with ⟨kv, hkv, hlen, haeq⟩
  obtain ⟨g1, m1⟩ := a
  cases g1 with
  | none => simp [ParameterCombination.hasZipMismatch]
  | some g2 =>
    have hg2 : g2 = g := by
      rcases H1 kv hkv hlen with hcase | hcase
      · have : (some g2 : Option String) = some g := by
          have := congrArg Prod.fst haeq
          simp only at this
          rw [this, hcase]
        exact Option.some.injEq _ _ ▸ this
      · have : (some g2 : Option String) = none := by
          have := congrArg Prod.fst haeq
          simp only at this
          rw [this, hcase]
        cases this
    subst hg2
    have hm1 : m1 = L := sweptGroups_size_of_g H2 (some g2, m1) ha rfl
    have hany : ((ParameterCombination.ofDict p).sweptGroups.any
        (fun gl2 => gl2.1 = some g2 ∧ gl2.2 ≠ m1)) = false := by
      apply List.any_eq_false.2
      intro b hb
      simp only [decide_eq_true_eq]
      intro ⟨hbg, hbm⟩
      exact hbm (by rw [sweptGroups_size_of_g H2 b hb hbg, hm1])
    simp [hany]
    intro _ x x1 hmem hx
    have h2 : x1 = L := sweptGroups_size_of_g H2 (x, x1) hmem (by simpa using hx)
    omega

theorem dims_range_values (p : Dict) (g : String) :
    (dimsOf p g).map (fun d => List.range d.2)
      = (ParameterCombination.ofDict p).values.map (fun v => List.range v.length) := by
  simp only [dimsOf, ParameterCombination.ofDict, List.map_map]
  rfl

theorem allEqMarked_of_mem_diagProd (dims : List (Bool × Nat)) :
    ∀ (st : Option Nat) (idx : List Nat), idx ∈ diagProd dims st →
      allEqMarked dims st idx = true := by
  induction dims with
  | nil =>
    intro st idx h
    simp only [diagProd, List.mem_singleton] at h
    subst h
    simp [allEqMarked]
  | cons d dims ih =>
    intro st idx h
    obtain ⟨m, n⟩ := d
    cases m with
    | false =>
      rw [diagProd_cons_false] at h
      rcases List.mem_flatMap.1 h with ⟨x, hx, hmem⟩
      rcases List.mem_map.1 hmem with ⟨t, ht, heq⟩
      subst heq
      simpa [allEqMarked] using ih st t ht
    | true =>
      cases st with
      | none =>
        rw [diagProd_cons_true_none] at h
        rcases List.mem_flatMap.1 h with ⟨x, hx, hmem⟩
        rcases List.mem_map.1 hmem with ⟨t, ht, heq⟩
        subst heq
        simpa [allEqMarked] using ih (some x) t ht
      | some t0 =>
        rw [diagProd_cons_true_some] at h
        by_cases hlt : t0 < n
        · rw [if_pos hlt] at h
          rcases List.mem_map.1 h with ⟨t, ht, heq⟩
          subst heq
          simpa [allEqMarked] using ih (some t0) t ht
        · rw [if_neg hlt] at h
          cases h

/-- C3: for a flat mapping with no empty value list whose swept
parameters all belong to zip group `g` (of uniform member length `L`,
with at least one member) or carry no tag, the combinations are exactly the cartesian product restricted to the
shared diagonal of the group's axes: `L · ∏ (non-member sizes)`
combinations, every kept index tuple placing all group members at one
common position; when nothing outside the group is swept and no value
list is empty the count is exactly `L`, not `L^k`. -/
theorem C3_zip_group_diagonal (p : Dict) (g : String) (L : Nat)
    (hg : g ≠ "")
    (Hpos : ∀ kv ∈ p, 0 < (normalizeVal kv.2).length)
    (H1 : ∀ kv ∈ p, 1 < (normalizeVal kv.2).length →
      get_zip_group kv.1 = some g ∨ get_zip_group kv.1 = none)
    (H2 : ∀ kv ∈ p, 1 < (normalizeVal kv.2).length →
      get_zip_group kv.1 = some g → (normalizeVal kv.2).length = L)
    (H3 : ∃ kv ∈ p, 1 < (normalizeVal kv.2).length ∧ get_zip_group kv.1 = some g) :
    (ParameterCombination.ofDict p).combinations
      = .ok ((diagProd (dimsOf p g) none).map
          (ParameterCombination.ofDict p).comboOfIdx) ∧
    ((diagProd (dimsOf p g) none).map
        (ParameterCombination.ofDict p).comboOfIdx).length
      = L * (unmarkedSizes p g).prod ∧
    (∀ idx ∈ diagProd (dimsOf p g) none,
      ∀ x ∈ markedVals (dimsOf p g) idx, ∀ y ∈ markedVals (dimsOf p g) idx, x = y) ∧
    ((∀ kv ∈ p, ¬ (1 < (normalizeVal kv.2).length ∧ get_zip_group kv.1 = some g) →
        (normalizeVal kv.2).length = 1) →
      ((diagProd (dimsOf p g) none).map
          (ParameterCombination.ofDict p).comboOfIdx).length = L) := by
  have hdims_flag : ∀ d ∈ dimsOf p g, d.1 = true → d.2 = L := by
    intro d hd hflag
    rcases List.mem_map.1 hd with ⟨kv, hkv, heq⟩
    subst heq
    simp only [Bool.and_eq_true, decide_eq_true_eq] at hflag
    exact H2 kv hkv hflag.1 hflag.2
  have hdims_ex : ∃ d ∈ dimsOf p g, d.1 = true := by
    rcases H3 with ⟨kv, hkv, hlen, hzip⟩
    exact ⟨_, List.mem_map.2 ⟨kv, hkv, rfl⟩, by simp [hlen, hzip]⟩
  have hlen_eq : ((diagProd (dimsOf p g) none).map
      (ParameterCombination.ofDict p).comboOfIdx).length
      = L * (unmarkedSizes p g).prod := by
    rw [List.length_map, diagProd_length_none (dimsOf p g) L hdims_flag hdims_ex,
      unmarkedSizes]
  refine ⟨?_, hlen_eq, ?_, ?_⟩
  · rw [ParameterCombination.combinations, if_neg (by
      rw [hasZipMismatch_false_of_uniform p g L H1 H2]; simp)]
    rw [if_neg (by rw [values_not_empty p Hpos]; simp)]
    congr 1
    rw [ParameterCombination.combosRaw, filterMap_if_eq_filter_map]
    congr 1
    rw [filter_congr_fun _ _ (fun idx => allEqMarked (dimsOf p g) none idx)
      (fun idx _ => validIdx_eq_allEqMarked p g idx hg H1)]
    rw [ParameterCombination.indexTuples, ← dims_range_values]
    exact prodLists_filter_allEq (dimsOf p g) none
  · intro idx hidx
    exact (allEqMarked_none_iff _ _).1 (allEqMarked_of_mem_diagProd _ none idx hidx)
  · intro hsingle
    rw [hlen_eq]
    have hone : (unmarkedSizes p g).prod = 1 := by
      apply List.prod_eq_one
      intro x hx
      rcases List.mem_filterMap.1 hx with ⟨d, hd, hdx⟩
      rcases List.mem_map.1 hd with ⟨kv, hkv, heq⟩
      subst heq
      split at hdx
      next hflag => cases hdx
      next hflag =>
        rw [Option.some.injEq] at hdx
        rw [← hdx]
        simp only
        apply hsingle kv hkv
        intro ⟨h1, h2⟩
        simp [h1, h2] at hflag
    rw [hone, Nat.mul_one]

/-- Concrete three-parameter mapping for the C3 witness: two members of
zip group `g` of length 3 and one free swept parameter of length 2. -/
def c3wp : Dict :=
  [("p1#zip_g", Val.list [Val.int 1, Val.int 2, Val.int 3]),
   ("p2#zip_g", Val.list [Val.str "a", Val.str "b", Val.str "c"]),
   ("q", Val.list [Val.int 10, Val.int 20])]

theorem C3_zip_group_diagonal_witness :
    ("g" : String) ≠ "" ∧
    (ParameterCombination.ofDict c3wp).combinations
      = .ok ((diagProd (dimsOf c3wp "g") none).map
          (ParameterCombination.ofDict c3wp).comboOfIdx) ∧
    ((diagProd (dimsOf c3wp "g") none).map
        (ParameterCombination.ofDict c3wp).comboOfIdx).length
      = 3 * (unmarkedSizes c3wp "g").prod ∧
    3 * (unmarkedSizes c3wp "g").prod = 6 :=
  ⟨by decide,
   (C3_zip_group_diagonal c3wp "g" 3 (by decide) (by decide) (by decide) (by decide)
     ⟨("p1#zip_g", Val.list [Val.int 1, Val.int 2, Val.int 3]), by decide, by decide⟩).1,
   (C3_zip_group_diagonal c3wp "g" 3 (by decide) (by decide) (by decide) (by decide)
     ⟨("p1#zip_g", Val.list [Val.int 1, Val.int 2, Val.int 3]), by decide, by decide⟩).2.1,
   by decide⟩

/-! ### C10: composite index structure of the test combinations -/

theorem range_getD (n i : Nat) (h : i < n) : (List.range n).getD i 0 = i := by
  rw [List.getD_eq_getElem?_getD, List.getElem?_range h]
  rfl

theorem enumFrom_fst_lt {α : Type} (l : List α) : ∀ (n : Nat) (p : Nat × α),
    p ∈ l.enumFrom n → p.1 < n + l.length := by
  induction l with
  | nil => intro n p h; simp at h
  | cons x l ih =>
    intro n p h
    rw [List.enumFrom] at h
    rcases List.mem_cons.1 h with h | h
    · subst h
      show n < n + (l.length + 1)
      omega
    · have := ih (n + 1) p h
      show p.1 < n + (l.length + 1)
      omega

theorem enum_fst_lt {α : Type} (l : List α) (p : Nat × α) (h : p ∈ l.enum) :
    p.1 < l.length := by
  have := enumFrom_fst_lt l 0 p (by simpa [List.enum] using h)
  omega

theorem indexed_inner_struct (cs : List Dict) (nL iT : Nat) :
    ∀ res, _get_indexed_inner cs nL iT = .ok res →
      ∀ c ∈ res, ∃ ixs : List Val,
        dget c "__index" = some (Val.list ixs) ∧
        ixs.length = nL + 1 ∧
        (∀ l, l ≤ nL → dget c (idxKey l) = some (ixs.getD l Val.vnone)) ∧
        dget c "__index_test" = some (Val.int (iT : Int)) := by
  intro res h c hc
  rcases mapM_ok_forall _ _ res h c hc with ⟨ic, _, hf⟩
  split at hf
  · cases hf
  next ixs hmap =>
    cases hf
    rcases mapM_ok_nth _ _ ixs hmap with ⟨hlen, hnth⟩
    refine ⟨ixs, ?_, ?_, ?_, dget_dinsert_self _ _ _⟩
    · rw [dget_dinsert_ne _ (by decide) _, dget_dinsert_self]
    · rw [hlen, List.length_range]
    · intro l hl
      have hl2 : l < (List.range (nL + 1)).length := by
        rw [List.length_range]; omega
      have hx := hnth l hl2
      simp only [range_getD (nL + 1) l (by omega)] at hx
      split at hx
      next v hv =>
        cases hx
        rw [dget_dinsert_ne _ (Ne.symm (idxKey_ne_indexTest l)) _,
          dget_dinsert_ne _ (Ne.symm (idxKey_ne_index l)) _]
        exact hv
      next hv => cases hx

theorem runTestBlock_member (op : Dict) (nL : Nat) (yv : Val) (iT : Nat) (test : Dict) :
    ∀ tb, runTestBlock op nL yv iT test = .ok tb →
      ∀ c ∈ tb, dhasKey c "__index_test" = true →
        ∃ ixs : List Val,
          dget c "__index" = some (Val.list ixs) ∧
          ixs.length = nL + 1 ∧
          (∀ l, l ≤ nL → dget c (idxKey l) = some (ixs.getD l Val.vnone)) ∧
          dget c "__index_test" = some (Val.int (iT : Int)) := by
  intro tb h c hc htk
  unfold runTestBlock at h
  split at h
  · cases h
  next cs hcs =>
    split at h
    · cases h
    next cs2 hi =>
      cases h
      rcases List.mem_cons.1 hc with hm | hm
      · subst hm
        simp [dhasKey, dget] at htk
      · rcases List.mem_append.1 hm with hm | hm
        · rcases List.mem_map.1 hm with ⟨c2, hc2, hceq⟩
          subst hceq
          rcases indexed_inner_struct cs nL iT cs2 hi c2 hc2 with ⟨ixs, h1, h2, h3, h4⟩
          refine ⟨ixs, ?_, h2, ?_, ?_⟩
          · rw [dget_dinsert_ne _ (by decide) _, h1]
          · intro l hl
            rw [dget_dinsert_ne _ (Ne.symm (idxKey_ne_yield l)) _, h3 l hl]
          · rw [dget_dinsert_ne _ (by decide) _, h4]
        · rcases List.mem_singleton.1 hm with hm
          subst hm
          simp [dhasKey, dget] at htk

theorem runTuple_member (setups teardowns : List Val) (yv : Val) (tests : List Dict)
    (tuple : List Dict) :
    ∀ b, runTuple setups teardowns yv tests tuple = .ok b →
      ∀ c ∈ b, dhasKey c "__index_test" = true →
        ∃ ixs : List Val,
          dget c "__index" = some (Val.list ixs) ∧
          ixs.length = setups.length + 1 ∧
          (∀ l, l ≤ setups.length → dget c (idxKey l) = some (ixs.getD l Val.vnone)) ∧
          ∃ iT : Nat, dget c "__index_test" = some (Val.int (iT : Int)) ∧
            iT < tests.length := by
  intro b h c hc htk
  simp only [runTuple] at h
  split at h
  · cases h
  next roll hr =>
    split at h
    · cases h
    next tbs hm =>
      cases h
      rcases List.mem_append.1 hc with hm2 | hm2
      · rcases (rollGo_events _ _ roll hr).2 c hm2 with ⟨v, hv⟩ | ⟨v, hv⟩ <;>
          (subst hv; simp [dhasKey, dget] at htk)
      · rcases List.mem_flatten.1 hm2 with ⟨tb, htbm, hcm⟩
        rcases mapM_ok_forall _ _ tbs hm tb htbm with ⟨it, hitm, hok⟩
        rcases runTestBlock_member _ _ _ _ _ tb hok c hcm htk with ⟨ixs, h1, h2, h3, h4⟩
        exact ⟨ixs, h1, h2, h3, it.1, h4, enum_fst_lt tests it hitm⟩

theorem isTestCombination_singleton_ne (k : String) (v : Val)
    (h : k ≠ "__index_test") : isTestCombination [(k, v)] = false := by
  simp [isTestCombination, dhasKey, dget, h]

theorem filter_cons_false {α : Type} (P : α → Bool) (a : α) (l : List α)
    (h : P a = false) : (a :: l).filter P = l.filter P := by
  simp [List.filter_cons, h]

theorem filterMapProj_flatten {α β : Type} (P : α → Bool) (f : α → β) :
    ∀ (L : List (List α)), ((L.flatten).filter P).map f
      = (L.map (fun x => (x.filter P).map f)).flatten := by
  intro L
  induction L with
  | nil => rfl
  | cons x L ih =>
    simp only [List.flatten_cons, List.filter_append, List.map_append, List.map_cons, ih]

theorem eq_replicate_of_forall {α : Type} {l : List α} {a : α}
    (h : ∀ b ∈ l, b = a) : l = List.replicate l.length a := by
  induction l with
  | nil => rfl
  | cons x l ih =>
    rw [List.length_cons, List.replicate_succ, h x (List.mem_cons_self _ _)]
    exact congrArg (List.cons a) (ih (fun y hy => h y (List.mem_cons_of_mem _ hy)))

theorem mapM_cons_ok {α β : Type} (f : α → Except Err β) (a : α) (l : List α)
    (res : List β) (h : (a :: l).mapM f = .ok res) :
    ∃ b bs, f a = .ok b ∧ l.mapM f = .ok bs ∧ res = b :: bs := by
  rw [List.mapM_cons] at h
  cases fa : f a with
  | error e => rw [fa] at h; simp [Bind.bind, Except.bind] at h
  | ok x =>
    rw [fa] at h
    cases hrest : l.mapM f with
    | error e => rw [hrest] at h; simp [Bind.bind, Except.bind] at h
    | ok xs =>
      rw [hrest] at h
      simp only [Bind.bind, Except.bind, pure, Except.pure, Except.ok.injEq] at h
      exact ⟨x, xs, rfl, rfl, h.symm⟩

theorem mapM_ok_length {α β : Type} (f : α → Except Err β) :
    ∀ (l : List α) (res : List β), l.mapM f = .ok res → res.length = l.length := by
  intro l
  induction l with
  | nil =>
    intro res h
    simp only [List.mapM_nil, pure] at h
    cases h
    rfl
  | cons a l ih =>
    intro res h
    rcases mapM_cons_ok f a l res h with ⟨b, bs, _, hrest, heq⟩
    subst heq
    simp [ih bs hrest]

theorem zeros_mem_prodLists_ranges : ∀ (vs : List (List Val)),
    (∀ v ∈ vs, 0 < v.length) →
    vs.map (fun _ => (0 : Nat)) ∈ prodLists (vs.map (fun v => List.range v.length)) := by
  intro vs
  induction vs with
  | nil => intro _; simp [prodLists]
  | cons v vs ih =>
    intro h
    simp only [List.map_cons, prodLists]
    apply List.mem_flatMap.2
    refine ⟨0, List.mem_range.2 (h v (List.mem_cons_self _ _)), ?_⟩
    exact List.mem_map.2 ⟨vs.map (fun _ => 0),
      ih (fun u hu => h u (List.mem_cons_of_mem _ hu)), rfl⟩

theorem sweptIdx_snd_mem (pc : ParameterCombination) (idx : List Nat) :
    ∀ a ∈ pc.sweptIdx idx, a.2 ∈ idx := by
  intro a ha
  rcases List.mem_filterMap.1 ha with ⟨⟨nv, j⟩, hx, heq⟩
  split at heq
  · rw [Option.some.injEq] at heq
    rw [← heq]
    exact (List.of_mem_zip hx).2
  · cases heq

/-- A successful `combinations` list is never empty: the all-zeros index
tuple survives the mask (all marked coordinates coincide at `0`). -/
theorem combinations_ok_pos (pc : ParameterCombination) (cs : List Dict)
    (h : pc.combinations = .ok cs) : 0 < cs.length := by
  rw [ParameterCombination.combinations] at h
  split at h
  · cases h
  · split at h
    · cases h
    next hemp =>
      cases h
      have hfalse : pc.values.any (fun v => v.length = 0) = false := by
        cases hx : pc.values.any (fun v => v.length = 0) with
        | false => rfl
        | true => exact absurd hx hemp
      have hpos : ∀ v ∈ pc.values, 0 < v.length := by
        intro v hv
        have h2 := List.any_eq_false.1 hfalse v hv
        simp only [decide_eq_true_eq] at h2
        omega
      have hmem0 : pc.values.map (fun _ => (0 : Nat)) ∈ pc.indexTuples := by
        rw [ParameterCombination.indexTuples]
        exact zeros_mem_prodLists_ranges pc.values hpos
      have hvalid : ParameterCombination.validIdx
          (pc.sweptIdx (pc.values.map (fun _ => (0 : Nat)))) = true := by
        apply (validIdx_iff_pairwise _).2
        intro a ha g0 hg0 hne b hb hbg
        have ha0 : a.2 = 0 := by
          rcases List.mem_map.1 (sweptIdx_snd_mem pc _ a ha) with ⟨x, _, h0⟩
          exact h0.symm
        have hb0 : b.2 = 0 := by
          rcases List.mem_map.1 (sweptIdx_snd_mem pc _ b hb) with ⟨x, _, h0⟩
          exact h0.symm
        rw [hb0, ha0]
      have hcmem : pc.comboOfIdx (pc.values.map (fun _ => (0 : Nat))) ∈ pc.combosRaw := by
        rw [ParameterCombination.combosRaw]
        exact List.mem_filterMap.2 ⟨_, hmem0, by rw [if_pos hvalid]⟩
      exact List.length_pos.2 (List.ne_nil_of_mem hcmem)

theorem indexed_inner_tag (cs : List Dict) (nL iT : Nat) :
    ∀ res, _get_indexed_inner cs nL iT = .ok res →
      res.length = cs.length ∧
      ∀ c ∈ res, dget c "__index_test" = some (Val.int (iT : Int)) := by
  intro res h
  constructor
  · have h2 := h
    simp only [_get_indexed_inner] at h2
    rw [mapM_ok_length _ _ _ h2]
    simp
  · intro c hc
    rcases mapM_ok_forall _ _ res h c hc with ⟨ic, _, hf⟩
    split at hf
    · cases hf
    · cases hf
      exact dget_dinsert_self _ _ _

/-- Every test block's `__index_test` projection is a nonempty constant
run of the block's test position. -/
theorem runTestBlock_tags (op : Dict) (nL : Nat) (yv : Val) (iT : Nat) (test : Dict) :
    ∀ tb, runTestBlock op nL yv iT test = .ok tb →
      ∃ m : Nat, 0 < m ∧
        (tb.filter isTestCombination).map (fun c => dget c "__index_test")
          = List.replicate m (some (Val.int (iT : Int))) := by
  intro tb h
  unfold runTestBlock at h
  split at h
  · cases h
  next cs hcs =>
    split at h
    · cases h
    next cs2 hi =>
      cases h
      have htest : ∀ c ∈ cs2.map (fun c => dinsert c "yield"
          ((dget (dremove (dremove test "setup") "teardown") "yield").getD yv)),
          isTestCombination c = true := by
        intro c hcmem
        rcases List.mem_map.1 hcmem with ⟨c2, hc2, hceq⟩
        rw [← hceq]
        exact dhasKey_dinsert_of _ _ _ _ (indexed_inner_testkey cs nL iT cs2 hi c2 hc2)
      refine ⟨cs2.length, ?_, ?_⟩
      · have hlen := (indexed_inner_tag cs nL iT cs2 hi).1
        have hpos := combinations_ok_pos _ cs hcs
        omega
      · rw [List.cons_append]
        rw [filter_cons_false _ _ _ (isTestCombination_singleton_ne "setup" _ (by decide))]
        rw [List.filter_append]
        rw [filter_cons_false _ _ _ (isTestCombination_singleton_ne "teardown" _ (by decide))]
        simp only [List.filter_nil, List.append_nil]
        rw [List.filter_eq_self.2 htest]
        rw [List.map_map]
        have hmem : ∀ b ∈ cs2.map ((fun c => dget c "__index_test") ∘ (fun c =>
            dinsert c "yield"
              ((dget (dremove (dremove test "setup") "teardown") "yield").getD yv))),
            b = some (Val.int (iT : Int)) := by
          intro b hb
          rcases List.mem_map.1 hb with ⟨c2, hc2, heq⟩
          rw [← heq]
          simp only [Function.comp_apply]
          rw [dget_dinsert_ne _ (by decide) _]
          exact (indexed_inner_tag cs nL iT cs2 hi).2 c2 hc2
        have h2 := eq_replicate_of_forall hmem
        rw [List.length_map] at h2
        exact h2

theorem mapM_testBlocks_tags (op : Dict) (nL : Nat) (yv : Val) :
    ∀ (ts : List Dict) (k : Nat) (tbs : List (List Dict)),
      (ts.enumFrom k).mapM (fun it => runTestBlock op nL yv it.1 it.2) = .ok tbs →
      ∃ cnt : List Nat, cnt.length = ts.length ∧ (∀ n ∈ cnt, 0 < n) ∧
        (tbs.map (fun tb => (tb.filter isTestCombination).map
          (fun c => dget c "__index_test"))).flatten
        = (cnt.enumFrom k).flatMap (fun itn =>
            List.replicate itn.2 (some (Val.int (itn.1 : Int)))) := by
  intro ts
  induction ts with
  | nil =>
    intro k tbs h
    simp only [List.enumFrom, List.mapM_nil, pure] at h
    cases h
    exact ⟨[], rfl, by simp, by simp [List.enumFrom]⟩
  | cons t ts ih =>
    intro k tbs h
    rw [show (t :: ts).enumFrom k = (k, t) :: ts.enumFrom (k + 1) from rfl] at h
    rcases mapM_cons_ok _ _ _ _ h with ⟨tb0, tbs2, hfa, hrest, heq⟩
    subst heq
    rcases runTestBlock_tags op nL yv k t tb0 hfa with ⟨m, hm, hproj⟩
    rcases ih (k + 1) tbs2 hrest with ⟨cnt, hc1, hc2, hc3⟩
    refine ⟨m :: cnt, by simp [hc1], ?_, ?_⟩
    · intro n hn
      rcases List.mem_cons.1 hn with hn | hn
      · subst hn; exact hm
      · exact hc2 n hn
    · rw [List.map_cons, List.flatten_cons, hproj]
      rw [show (m :: cnt).enumFrom k = (k, m) :: cnt.enumFrom (k + 1) from rfl]
      rw [List.flatMap_cons, hc3]

theorem runTuple_tags (setups teardowns : List Val) (yv : Val) (tests : List Dict)
    (tuple : List Dict) :
    ∀ b, runTuple setups teardowns yv tests tuple = .ok b →
      ∃ cnt : List Nat, cnt.length = tests.length ∧ (∀ n ∈ cnt, 0 < n) ∧
        (b.filter isTestCombination).map (fun c => dget c "__index_test")
          = cnt.enum.flatMap (fun itn =>
              List.replicate itn.2 (some (Val.int (itn.1 : Int)))) := by
  intro b h
  simp only [runTuple] at h
  split at h
  · cases h
  next roll hr =>
    split at h
    · cases h
    next tbs hm =>
      cases h
      rcases mapM_testBlocks_tags _ _ _ tests 0 tbs hm with ⟨cnt, h1, h2, h3⟩
      refine ⟨cnt, h1, h2, ?_⟩
      rw [List.filter_append, List.map_append]
      have hroll : roll.filter isTestCombination = [] := by
        rw [List.filter_eq_nil_iff]
        intro e he
        rcases (rollGo_events _ _ roll hr).2 e he with ⟨v, hv⟩ | ⟨v, hv⟩
        · subst hv
          simp [isTestCombination_singleton_ne "teardown" v (by decide)]
        · subst hv
          simp [isTestCombination_singleton_ne "setup" v (by decide)]
      rw [hroll]
      simp only [List.map_nil, List.nil_append]
      rw [filterMapProj_flatten]
      exact h3

theorem mapM_tuples_tags (setups teardowns : List Val) (yv : Val) (tests : List Dict) :
    ∀ (tuples : List (List Dict)) (blocks : List (List Dict)),
      tuples.mapM (runTuple setups teardowns yv tests) = .ok blocks →
      ∃ ns : List (List Nat),
        (∀ cnt ∈ ns, cnt.length = tests.length ∧ ∀ n ∈ cnt, 0 < n) ∧
        (blocks.map (fun b => (b.filter isTestCombination).map
          (fun c => dget c "__index_test"))).flatten
        = ns.flatMap (fun cnt => cnt.enum.flatMap (fun itn =>
            List.replicate itn.2 (some (Val.int (itn.1 : Int))))) := by
  intro tuples
  induction tuples with
  | nil =>
    intro blocks h
    simp only [List.mapM_nil, pure] at h
    cases h
    exact ⟨[], by simp, by simp⟩
  | cons t tuples ih =>
    intro blocks h
    rcases mapM_cons_ok _ _ _ _ h with ⟨b0, blocks2, hfa, hrest, heq⟩
    subst heq
    rcases runTuple_tags setups teardowns yv tests t b0 hfa with ⟨cnt0, h1, h2, h3⟩
    rcases ih blocks2 hrest with ⟨ns, hn1, hn2⟩
    refine ⟨cnt0 :: ns, ?_, ?_⟩
    · intro cnt hcnt
      rcases List.mem_cons.1 hcnt with hcnt | hcnt
      · subst hcnt; exact ⟨h1, h2⟩
      · exact hn1 cnt hcnt
    · simp only [List.map_cons, List.flatten_cons, List.flatMap_cons, h3, hn2]

/-- C10: in every test combination emitted by `get_combinations`, the
composite index `__index` is the list of the per-level index values
`__index_0` through `__index_n` in level order, where `n` is the number of
extracted levels (the innermost entry indexing the test's own
combinations); and the `__index_test` values of the test combinations
form, per outer-combination tuple, one nonempty constant block per
declared leaf test in declaration order `0, 1, …` — each combination's
`__index_test` is the zero-based declaration position of the leaf test
that produced it, strictly below the number of leaf tests. -/
theorem C10_composite_index (p : Dict) (out : List Dict)
    (h : get_combinations p = .ok out) :
    ∃ sk root, _extract_skeleton p = .ok (sk, root) ∧
      (∀ c ∈ out, dhasKey c "__index_test" = true →
        (∃ ixs : List Val,
          dget c "__index" = some (Val.list ixs) ∧
          ixs.length = sk.setups.length + 1 ∧
          ∀ l, l ≤ sk.setups.length → dget c (idxKey l) = some (ixs.getD l Val.vnone)) ∧
        (∃ iT : Nat, dget c "__index_test" = some (Val.int (iT : Int)) ∧
          iT < sk.tests.length)) ∧
      (∃ ns : List (List Nat),
        (∀ cnt ∈ ns, cnt.length = sk.tests.length ∧ ∀ n ∈ cnt, 0 < n) ∧
        (out.filter isTestCombination).map (fun c => dget c "__index_test")
          = ns.flatMap (fun cnt => cnt.enum.flatMap (fun itn =>
              List.replicate itn.2 (some (Val.int (itn.1 : Int)))))) := by
  rcases get_combinations_ok_parts p out h with ⟨sk, root, blocks, hex, hblocks, hout⟩
  subst hout
  refine ⟨sk, root, hex, ?_, ?_⟩
  · intro c hc htk
    rcases List.mem_cons.1 hc with hm | hm
    · subst hm
      simp [dhasKey, dget] at htk
    · rcases List.mem_append.1 hm with hm | hm
      · rcases List.mem_flatten.1 hm with ⟨b, hbm, hcm⟩
        rcases mapM_ok_forall _ _ blocks hblocks b hbm with ⟨tuple, _, hok⟩
        rcases runTuple_member _ _ _ _ _ b hok c hcm htk with ⟨ixs, h1, h2, h3, iT, h4, h5⟩
        exact ⟨⟨ixs, h1, h2, h3⟩, ⟨iT, h4, h5⟩⟩
      · rcases List.mem_singleton.1 hm with hm
        subst hm
        simp [dhasKey, dget] at htk
  · rcases mapM_tuples_tags sk.setups sk.teardowns sk.yield_values sk.tests _ blocks
      hblocks with ⟨ns, hn1, hn2⟩
    refine ⟨ns, hn1, ?_⟩
    rw [List.cons_append]
    rw [filter_cons_false _ _ _ (isTestCombination_singleton_ne "setup" _ (by decide))]
    rw [List.filter_append]
    rw [filter_cons_false _ _ _ (isTestCombination_singleton_ne "teardown" _ (by decide))]
    simp only [List.filter_nil, List.append_nil]
    rw [filterMapProj_flatten]
    exact hn2

/-- Two-level specification with two leaf tests for the C10 witness. -/
def c10wp : Dict := [("main", .dict [
  ("temperature", .list [.int 25, .int 26]),
  ("t1", .dict [("param", .list [.int 1, .int 2])]),
  ("t2", .dict [("other", .int 3)])])]

def c10out : List Dict := ((get_combinations c10wp).toOption).getD []

theorem C10_composite_index_witness :
    ∃ sk root, _extract_skeleton c10wp = .ok (sk, root) ∧
      (∀ c ∈ c10out, dhasKey c "__index_test" = true →
        (∃ ixs : List Val,
          dget c "__index" = some (Val.list ixs) ∧
          ixs.length = sk.setups.length + 1 ∧
          ∀ l, l ≤ sk.setups.length → dget c (idxKey l) = some (ixs.getD l Val.vnone)) ∧
        (∃ iT : Nat, dget c "__index_test" = some (Val.int (iT : Int)) ∧
          iT < sk.tests.length)) ∧
      (∃ ns : List (List Nat),
        (∀ cnt ∈ ns, cnt.length = sk.tests.length ∧ ∀ n ∈ cnt, 0 < n) ∧
        (c10out.filter isTestCombination).map (fun c => dget c "__index_test")
          = ns.flatMap (fun cnt => cnt.enum.flatMap (fun itn =>
              List.replicate itn.2 (some (Val.int (itn.1 : Int)))))) :=
  C10_composite_index c10wp c10out (by decide)

end Rossa
